import Mathlib

/-!
# StepperMotor (src/StepperMotor.cpp): embedding and verified properties

The C++ class `StepperMotor` is embedded as pure state-passing functions.

* The `StepperDriver` collaborator is not part of the translation unit; it is
  a parameter: a record of state transformers over an arbitrary driver state
  `D`.  Every driver member function may read and change the driver state.
* A finite `double` is the rational it denotes; every non-finite value (an
  infinity or a NaN) is the single value `Double.nonfinite`.  Arguments of
  type `double` are finite (`ℚ`); the binary64 values are among them.
* The products and the quotient whose value goes through std::round into an
  integer (lines 34, 45-46 and 69) are rounded as binary64 arithmetic rounds
  them: to the nearest value with a 53-bit significand, ties to even, with
  gradual underflow below 2^-1022 and overflow to an infinity from 2^1024
  (`Double.ofRat`).  Conversions of 32-bit integers to `double` are exact.
* The quotient stored in position_revolutions_ (lines 60 and 70), which no
  integer and no branch depends on, is kept as the exact quotient; the code
  stores the binary64 value nearest to it.
* `uint32_t`, `uint8_t` are naturals reduced modulo `2^32`, `2^8`; `int32_t`
  is an integer in `[-2^31, 2^31)`.
* `static_cast` from `double` to an integer type truncates toward zero when
  the truncated value is representable.  For every other value the language
  leaves the result open; the value the target produces is the parameter
  `Target`.
* The LOG_DEBUG diagnostics have no effect on the motor or the driver and are
  left out.
-/

namespace StepperMotor

/-! ## Numeric model -/

/-- Model of a C++ double: an exact rational, or a non-finite value. -/
inductive Double where
  | finite (q : ℚ)
  | nonfinite
  deriving DecidableEq

/-- Division of two finite doubles; a zero divisor gives an infinity or a NaN. -/
def Double.div (a b : ℚ) : Double :=
  if b = 0 then Double.nonfinite else Double.finite (a / b)

/-- Rounding to the nearest integer, halfway cases to the even neighbour. -/
def round_half_even (q : ℚ) : ℤ :=
  if q - ⌊q⌋ < 1 / 2 then ⌊q⌋
  else if 1 / 2 < q - ⌊q⌋ then ⌊q⌋ + 1
  else if ⌊q⌋ % 2 = 0 then ⌊q⌋ else ⌊q⌋ + 1

/-- Spacing of the binary64 values in the binade of q: 2^(e - 52) for
2^e ≤ |q| < 2^(e+1), and 2^-1074 below 2^-1022. -/
def ulp (q : ℚ) : ℚ :=
  (2 : ℚ) ^ (max (Int.log 2 |q|) (-1022) - 52)

/-- The multiple of the spacing nearest to q, ties to even: the binary64
rounding of q before the exponent range is checked. -/
def nearest64 (q : ℚ) : ℚ :=
  ulp q * (round_half_even (q / ulp q) : ℚ)

/-- The binary64 result of an operation whose exact value is q: the nearest
binary64 value, or an infinity when that reaches 2^1024. -/
def Double.ofRat (q : ℚ) : Double :=
  if |nearest64 q| < 2 ^ 1024 then Double.finite (nearest64 q) else Double.nonfinite

/-- Rounding to the nearest integer, halfway cases away from zero (std::round on a finite value). -/
def round_half_away (q : ℚ) : ℤ :=
  if 0 ≤ q then ⌊q + 1 / 2⌋ else -⌊-q + 1 / 2⌋

/-- Model of std::round on a double: the result is again a double. -/
def Double.round : Double → Double
  | Double.finite q => Double.finite (round_half_away q)
  | Double.nonfinite => Double.nonfinite

/-- Truncation toward zero. -/
def trunc (q : ℚ) : ℤ :=
  if 0 ≤ q then ⌊q⌋ else ⌈q⌉

/-- What the target produces when a double is converted to an integer type
that cannot represent its truncated value. -/
structure Target where
  d2u : Double → ℕ
  d2i : Double → ℤ

/-- Reduction of an integer into the range of int32_t. -/
def wrap_int32 (z : ℤ) : ℤ :=
  (z + 2 ^ 31) % 2 ^ 32 - 2 ^ 31

/-- Model of static_cast<uint32_t>(double). -/
def to_uint32 (T : Target) (x : Double) : ℕ :=
  match x with
  | Double.finite q =>
    if 0 ≤ trunc q ∧ trunc q < 2 ^ 32 then (trunc q).toNat else T.d2u x % 2 ^ 32
  | Double.nonfinite => T.d2u x % 2 ^ 32

/-- Model of static_cast<int32_t>(double). -/
def to_int32 (T : Target) (x : Double) : ℤ :=
  match x with
  | Double.finite q =>
    if -2 ^ 31 ≤ trunc q ∧ trunc q < 2 ^ 31 then trunc q else wrap_int32 (T.d2i x)
  | Double.nonfinite => wrap_int32 (T.d2i x)

/-- A target whose out-of-range conversions saturate (non-finite values give the maximum). -/
def saturating : Target where
  d2u x :=
    match x with
    | Double.finite q => if q < 0 then 0 else 2 ^ 32 - 1
    | Double.nonfinite => 2 ^ 32 - 1
  d2i x :=
    match x with
    | Double.finite q => if q < 0 then -2 ^ 31 else 2 ^ 31 - 1
    | Double.nonfinite => 2 ^ 31 - 1

/-- A target whose out-of-range conversions keep the low 32 bits of the
truncated value (non-finite values give zero, respectively the minimum). -/
def truncating : Target where
  d2u x :=
    match x with
    | Double.finite q => (trunc q % 2 ^ 32).toNat
    | Double.nonfinite => 0
  d2i x :=
    match x with
    | Double.finite q => trunc q
    | Double.nonfinite => -2 ^ 31

/-! ## The driver collaborator -/

/-- The member functions of StepperDriver that StepperMotor.cpp calls, over a driver state `D`. -/
structure StepperDriver (D : Type) where
  get_stepMode : D → ℕ × D
  get_pulse_width : D → ℕ × D
  set_pulse_interval : D → ℕ → D
  set_direction : D → Bool → D
  get_direction : D → Bool × D
  step_for : D → ℕ → D
  step_pulse : D → Bool × D
  get_step_tracker : D → ℤ × D
  home : D → D
  set_standbyMode : D → Bool → D
  active : D → Bool × D

/-- A call received by the driver. -/
inductive Call where
  | get_stepMode
  | get_pulse_width
  | set_pulse_interval (v : ℕ)
  | set_direction (forward : Bool)
  | get_direction
  | step_for (n : ℕ)
  | step_pulse
  | get_step_tracker
  | home
  | set_standbyMode (b : Bool)
  | active
  deriving DecidableEq

/-- A driver that behaves as `drv` and records every call it receives, oldest first. -/
def traced {D : Type} (drv : StepperDriver D) : StepperDriver (D × List Call) where
  get_stepMode s := ((drv.get_stepMode s.1).1, (drv.get_stepMode s.1).2, s.2 ++ [Call.get_stepMode])
  get_pulse_width s :=
    ((drv.get_pulse_width s.1).1, (drv.get_pulse_width s.1).2, s.2 ++ [Call.get_pulse_width])
  set_pulse_interval s v := (drv.set_pulse_interval s.1 v, s.2 ++ [Call.set_pulse_interval v])
  set_direction s b := (drv.set_direction s.1 b, s.2 ++ [Call.set_direction b])
  get_direction s :=
    ((drv.get_direction s.1).1, (drv.get_direction s.1).2, s.2 ++ [Call.get_direction])
  step_for s n := (drv.step_for s.1 n, s.2 ++ [Call.step_for n])
  step_pulse s := ((drv.step_pulse s.1).1, (drv.step_pulse s.1).2, s.2 ++ [Call.step_pulse])
  get_step_tracker s :=
    ((drv.get_step_tracker s.1).1, (drv.get_step_tracker s.1).2, s.2 ++ [Call.get_step_tracker])
  home s := (drv.home s.1, s.2 ++ [Call.home])
  set_standbyMode s b := (drv.set_standbyMode s.1 b, s.2 ++ [Call.set_standbyMode b])
  active s := ((drv.active s.1).1, (drv.active s.1).2, s.2 ++ [Call.active])

/-! ## A reference driver -/

/-- Modelled from the spec: the StepperDriver collaborator of sections 3 and 6
(StepperDriver.h and its implementation are not among the sources): a fixed
step mode and pulse width, a mutable pulse interval and direction, a count of
requested steps still to execute, a signed step tracker and a standby flag. -/
structure SimDriver where
  step_mode : ℕ
  pulse_width : ℕ
  pulse_interval : ℕ
  direction : Bool
  pending : ℕ
  step_tracker : ℤ
  standby : Bool
  deriving DecidableEq

/-- Modelled from the spec: the operations of section 6 on the reference
driver.  A pulse fires when the driver is not in standby and steps are
pending; it moves the tracker by one in the current direction.  Homing
resets the tracker. -/
def simDriver : StepperDriver SimDriver where
  get_stepMode s := (s.step_mode, s)
  get_pulse_width s := (s.pulse_width, s)
  set_pulse_interval s v := { s with pulse_interval := v }
  set_direction s b := { s with direction := b }
  get_direction s := (s.direction, s)
  step_for s n := { s with pending := n }
  step_pulse s :=
    if s.standby = false ∧ 0 < s.pending then
      (true, { s with pending := s.pending - 1
                      step_tracker := s.step_tracker + (if s.direction then 1 else -1) })
    else (false, s)
  get_step_tracker s := (s.step_tracker, s)
  home s := { s with step_tracker := 0, pending := 0 }
  set_standbyMode s b := { s with standby := b }
  active s := (!s.standby, s)

/-- A reference driver state: sixteenth-step mode (ordinal 4), pulse width 2. -/
def sim0 : SimDriver :=
  { step_mode := 4, pulse_width := 2, pulse_interval := 0, direction := true,
    pending := 0, step_tracker := 0, standby := false }

/-- Modelled from the spec: a multiplier table for the modes full, half,
quarter, eighth, sixteenth (section 3); the header that defines
STEP_MODE_MULTIPLIER is not among the sources. -/
def simTable (mode : ℕ) : ℕ :=
  [1, 2, 4, 8, 16].getD mode 0

/-! ## The motor -/

/-- Data members of StepperMotor (the driver reference is passed separately).
StepperMotor.h is not among the sources; the member types are the ones the
definitions in StepperMotor.cpp fix: steps_per_rev_ is a 32-bit unsigned
integer (assigned from a uint32_t product), speed_ a double, position_step_ an
int32_t and position_revolutions_ a double (the components of the tuple
update_position returns). -/
structure Motor where
  label_ : String
  steps_per_rev_ : ℕ
  speed_ : ℚ
  position_step_ : ℤ
  position_revolutions_ : Double

/-- The double pulse_length of line 45: the binary64 product of rpm and the
steps per revolution, then the binary64 quotient of 60000000 by it.  A product
that overflows is an infinity and the quotient by it is a zero; a zero
product gives an infinity. -/
def pulse_length (rpm : ℚ) (steps_per_rev : ℕ) : Double :=
  match Double.ofRat (rpm * (steps_per_rev : ℚ)) with
  | Double.finite p => if p = 0 then Double.nonfinite else Double.ofRat (60000000 / p)
  | Double.nonfinite => Double.finite 0

/-- Embedding of StepperMotor::set_speed (lines 41-52). -/
def set_speed {D : Type} (T : Target) (drv : StepperDriver D) (m : Motor) (d : D) (rpm : ℚ) :
    Motor × D :=
  let m1 := { m with speed_ := rpm }
  let pulse_width := (drv.get_pulse_width d).1 % 2 ^ 8
  let d1 := (drv.get_pulse_width d).2
  let pulse_interval :=
    (to_uint32 T (Double.round (pulse_length rpm m1.steps_per_rev_)) + 2 ^ 32 - pulse_width)
      % 2 ^ 32
  (m1, drv.set_pulse_interval d1 pulse_interval)

/-- Embedding of StepperMotor::revolve (lines 27-39). -/
def revolve {D : Type} (T : Target) (drv : StepperDriver D) (m : Motor) (d : D)
    (revolutions : ℚ) : Motor × D :=
  let direction := decide (0 ≤ revolutions)
  let d1 := drv.set_direction d direction
  let steps :=
    to_uint32 T (Double.round (Double.ofRat (|revolutions| * (m.steps_per_rev_ : ℚ))))
  (m, drv.step_for d1 steps)

/-- Embedding of StepperMotor::get_direction (lines 54-56). -/
def get_direction {D : Type} (drv : StepperDriver D) (m : Motor) (d : D) : Bool × Motor × D :=
  ((drv.get_direction d).1, m, (drv.get_direction d).2)

/-- Embedding of StepperMotor::update_position() (lines 58-65). -/
def update_position {D : Type} (drv : StepperDriver D) (m : Motor) (d : D) :
    (ℤ × Double) × Motor × D :=
  let position_step := (drv.get_step_tracker d).1
  let d1 := (drv.get_step_tracker d).2
  let position_revolutions := Double.div (position_step : ℚ) (m.steps_per_rev_ : ℚ)
  ((position_step, position_revolutions),
    { m with position_step_ := position_step, position_revolutions_ := position_revolutions },
    d1)

/-- Embedding of the overload StepperMotor::update_position(double) (lines 67-73). -/
def update_position_rev {D : Type} (T : Target) (m : Motor) (d : D) (rev_pos : ℚ) : Motor × D :=
  let position_step :=
    to_int32 T (Double.round (Double.ofRat (rev_pos * (m.steps_per_rev_ : ℚ))))
  let position_revolutions := Double.div (position_step : ℚ) (m.steps_per_rev_ : ℚ)
  ({ m with position_step_ := position_step, position_revolutions_ := position_revolutions }, d)

/-- Embedding of StepperMotor::home (lines 75-82). -/
def home {D : Type} (drv : StepperDriver D) (m : Motor) (d : D) : Motor × D :=
  (update_position drv m (drv.home d)).2

/-- Embedding of StepperMotor::set_standbyMode (lines 84-88). -/
def set_standbyMode {D : Type} (drv : StepperDriver D) (m : Motor) (d : D) (active : Bool) :
    Motor × D :=
  (m, drv.set_standbyMode d active)

/-- Embedding of StepperMotor::active (lines 90-92). -/
def active {D : Type} (drv : StepperDriver D) (m : Motor) (d : D) : Bool × Motor × D :=
  ((drv.active d).1, m, (drv.active d).2)

/-- Embedding of StepperMotor::step (lines 94-102). -/
def step {D : Type} (drv : StepperDriver D) (m : Motor) (d : D) : Bool × Motor × D :=
  let pulse_flag := (drv.step_pulse d).1
  let d1 := (drv.step_pulse d).2
  if pulse_flag then (pulse_flag, (update_position drv m d1).2) else (pulse_flag, m, d1)

/-- Embedding of StepperMotor::label (lines 104-106). -/
def label (m : Motor) : String :=
  m.label_

/-- Embedding of the constructor (lines 6-25).  `STEP_MODE_MULTIPLIER` is the
table of the header, indexed by the ordinal of the driver's step mode.  The
members the initialiser list leaves unset are written by set_speed and
update_position before anything reads them; they start here as zero. -/
def construct {D : Type} (T : Target) (drv : StepperDriver D) (STEP_MODE_MULTIPLIER : ℕ → ℕ)
    (label : String) (d : D) (steps_per_rev : ℕ) (default_speed : ℚ) : Motor × D :=
  let step_mode := (drv.get_stepMode d).1
  let d1 := (drv.get_stepMode d).2
  let modeMultiplier := STEP_MODE_MULTIPLIER step_mode
  let m0 : Motor :=
    { label_ := label
      steps_per_rev_ := (steps_per_rev * modeMultiplier) % 2 ^ 32
      speed_ := 0
      position_step_ := 0
      position_revolutions_ := Double.finite 0 }
  let s1 := set_speed T drv m0 d1 default_speed
  (update_position drv s1.1 s1.2).2

/-- A motor with 3200 steps per revolution at rest at the origin. -/
def motor3200 : Motor :=
  { label_ := "M", steps_per_rev_ := 3200, speed_ := 60, position_step_ := 0,
    position_revolutions_ := Double.finite 0 }

/-! ## Sequences of public operations -/

/-- The relation between the two position members: the stored revolutions are
the quotient of the stored step count by the steps per revolution. -/
def consistent (m : Motor) : Prop :=
  m.position_revolutions_ = Double.div (m.position_step_ : ℚ) (m.steps_per_rev_ : ℚ)

instance (m : Motor) : Decidable (consistent m) :=
  inferInstanceAs (Decidable (_ = _))

/-- A public member function call with its arguments, or a change of the
driver state that happens between two calls. -/
inductive Op (D : Type) where
  | revolve (revolutions : ℚ)
  | set_speed (rpm : ℚ)
  | get_direction
  | update_position
  | update_position_rev (rev_pos : ℚ)
  | home
  | set_standbyMode (b : Bool)
  | active
  | step
  | label
  | driver_event (f : D → D)

/-- Effect of one operation on the motor and the driver. -/
def run_op {D : Type} (T : Target) (drv : StepperDriver D) (o : Op D) (s : Motor × D) :
    Motor × D :=
  match o with
  | Op.revolve r => revolve T drv s.1 s.2 r
  | Op.set_speed rpm => set_speed T drv s.1 s.2 rpm
  | Op.get_direction => (get_direction drv s.1 s.2).2
  | Op.update_position => (update_position drv s.1 s.2).2
  | Op.update_position_rev x => update_position_rev T s.1 s.2 x
  | Op.home => home drv s.1 s.2
  | Op.set_standbyMode b => set_standbyMode drv s.1 s.2 b
  | Op.active => (active drv s.1 s.2).2
  | Op.step => (step drv s.1 s.2).2
  | Op.label => s
  | Op.driver_event f => (s.1, f s.2)

/-- Effect of a sequence of operations, first to last. -/
def run_ops {D : Type} (T : Target) (drv : StepperDriver D) (ops : List (Op D))
    (s : Motor × D) : Motor × D :=
  ops.foldl (fun acc o => run_op T drv o acc) s

/-! ## Binary64 rounding -/

theorem round_half_even_bounds (q : ℚ) :
    ⌊q⌋ ≤ round_half_even q ∧ round_half_even q ≤ ⌊q⌋ + 1 := by
  unfold round_half_even
  split_ifs <;> constructor <;> omega

theorem round_half_even_intCast (z : ℤ) : round_half_even (z : ℚ) = z := by
  unfold round_half_even
  simp

theorem round_half_even_mono {a b : ℚ} (hab : a ≤ b) :
    round_half_even a ≤ round_half_even b := by
  have hfl : ⌊a⌋ ≤ ⌊b⌋ := Int.floor_le_floor hab
  rcases eq_or_lt_of_le hfl with h | h
  · unfold round_half_even
    rw [h]
    split_ifs <;> first | omega | (exfalso; linarith)
  · have h1 := (round_half_even_bounds a).2
    have h2 := (round_half_even_bounds b).1
    omega

theorem log_two_eq_of_bounds {r : ℚ} {e : ℤ} (h1 : (2 : ℚ) ^ e ≤ r) (h2 : r < (2 : ℚ) ^ (e + 1)) :
    Int.log 2 r = e := by
  have hr : 0 < r := lt_of_lt_of_le (by positivity) h1
  have ha : e ≤ Int.log 2 r := (Int.zpow_le_iff_le_log (by norm_num) hr).mp (by exact_mod_cast h1)
  have hb : Int.log 2 r < e + 1 := (Int.lt_zpow_iff_log_lt (by norm_num) hr).mp (by exact_mod_cast h2)
  omega

theorem nearest64_of_exponent {q : ℚ} {e : ℤ} (h1 : (2 : ℚ) ^ e ≤ |q|)
    (h2 : |q| < (2 : ℚ) ^ (e + 1)) (he : -1022 ≤ e) :
    nearest64 q = (2 : ℚ) ^ (e - 52) * (round_half_even (q / (2 : ℚ) ^ (e - 52)) : ℚ) := by
  unfold nearest64 ulp
  rw [log_two_eq_of_bounds h1 h2, max_eq_left he]


theorem ulp_pos (q : ℚ) : 0 < ulp q := by
  unfold ulp
  positivity

theorem nearest64_nonneg {q : ℚ} (h : 0 ≤ q) : 0 ≤ nearest64 q := by
  unfold nearest64
  have h1 : (0 : ℤ) ≤ ⌊q / ulp q⌋ := Int.floor_nonneg.mpr (div_nonneg h (ulp_pos q).le)
  have h2 := (round_half_even_bounds (q / ulp q)).1
  have h3 : (0 : ℚ) ≤ (round_half_even (q / ulp q) : ℚ) := by exact_mod_cast le_trans h1 h2
  exact mul_nonneg (ulp_pos q).le h3

theorem nearest64_of_ulp_multiple (q : ℚ) (n : ℤ) (h : q = ulp q * (n : ℚ)) :
    nearest64 q = q := by
  have hu : ulp q ≠ 0 := (ulp_pos q).ne'
  have hq : q / ulp q = (n : ℚ) := by
    rw [div_eq_iff hu, mul_comm]
    exact h
  unfold nearest64
  rw [hq, round_half_even_intCast]
  exact h.symm

theorem nearest64_zero : nearest64 0 = 0 := by
  simp [nearest64, round_half_even]

/-- An integer below 2^53 in magnitude is a binary64 value. -/
theorem nearest64_intCast (z : ℤ) (hz : |z| < 2 ^ 53) : nearest64 (z : ℚ) = z := by
  rcases eq_or_ne z 0 with h0 | h0
  · subst h0
    simpa using nearest64_zero
  have habs : (0 : ℚ) < |(z : ℚ)| := abs_pos.mpr (by exact_mod_cast h0)
  have h1 : (1 : ℚ) ≤ |(z : ℚ)| := by
    have : (1 : ℤ) ≤ |z| := Int.one_le_abs h0
    exact_mod_cast this
  have hlo : 0 ≤ Int.log 2 |(z : ℚ)| :=
    (Int.zpow_le_iff_le_log (by norm_num) habs).mp (by simpa using h1)
  have hhi : Int.log 2 |(z : ℚ)| < 53 := by
    apply (Int.lt_zpow_iff_log_lt (by norm_num) habs).mp
    have : (|z| : ℤ) < 2 ^ 53 := hz
    have h2 : |(z : ℚ)| < 2 ^ (53 : ℕ) := by exact_mod_cast this
    rw [show (((2 : ℕ) : ℚ)) ^ (53 : ℤ) = 2 ^ (53 : ℕ) by norm_num]
    exact h2
  obtain ⟨k, hk⟩ : ∃ k : ℕ, 52 - Int.log 2 |(z : ℚ)| = (k : ℤ) :=
    ⟨(52 - Int.log 2 |(z : ℚ)|).toNat, (Int.toNat_of_nonneg (by omega)).symm⟩
  apply nearest64_of_ulp_multiple _ (z * 2 ^ k)
  have hu : ulp (z : ℚ) = (2 : ℚ) ^ (Int.log 2 |(z : ℚ)| - 52) := by
    unfold ulp
    rw [max_eq_left (by omega)]
  have hk2 : ((2 : ℚ) ^ k) = (2 : ℚ) ^ (52 - Int.log 2 |(z : ℚ)|) := by
    rw [hk, zpow_natCast]
  rw [hu]
  push_cast
  rw [hk2, mul_comm (z : ℚ), ← mul_assoc, ← zpow_add₀ (two_ne_zero)]
  simp

theorem nearest64_mono {a b : ℚ} (ha : 0 ≤ a) (hab : a ≤ b) : nearest64 a ≤ nearest64 b := by
  rcases eq_or_lt_of_le ha with h0 | hapos
  · rw [← h0, nearest64_zero]
    exact nearest64_nonneg (le_trans ha hab)
  have hbpos : 0 < b := lt_of_lt_of_le hapos hab
  have hlog : Int.log 2 a ≤ Int.log 2 b := Int.log_mono_right hapos hab
  have hua : ulp a = (2 : ℚ) ^ (max (Int.log 2 a) (-1022) - 52) := by
    unfold ulp
    rw [abs_of_pos hapos]
  have hub : ulp b = (2 : ℚ) ^ (max (Int.log 2 b) (-1022) - 52) := by
    unfold ulp
    rw [abs_of_pos hbpos]
  have hle : max (Int.log 2 a) (-1022) ≤ max (Int.log 2 b) (-1022) := max_le_max hlog le_rfl
  rcases eq_or_lt_of_le hle with he | he
  · have hu : ulp a = ulp b := by rw [hua, hub, he]
    unfold nearest64
    rw [hu]
    have hdiv : a / ulp b ≤ b / ulp b := div_le_div_of_nonneg_right hab (ulp_pos b).le
    have hr : (round_half_even (a / ulp b) : ℚ) ≤ (round_half_even (b / ulp b) : ℚ) := by
      exact_mod_cast round_half_even_mono hdiv
    exact mul_le_mul_of_nonneg_left hr (ulp_pos b).le
  · -- a lies in a lower binade than b
    have hb_eq : max (Int.log 2 b) (-1022) = Int.log 2 b := by
      apply max_eq_left
      by_contra hcon
      have : max (Int.log 2 b) (-1022) = -1022 := max_eq_right (by omega)
      have h3 : -1022 ≤ max (Int.log 2 a) (-1022) := le_max_right _ _
      omega
    have ha_lt : a < (2 : ℚ) ^ (max (Int.log 2 a) (-1022) + 1) := by
      have h1 : a < ((2 : ℕ) : ℚ) ^ (Int.log 2 a + 1) := Int.lt_zpow_succ_log_self (by norm_num) a
      have h2 : ((2 : ℕ) : ℚ) ^ (Int.log 2 a + 1) ≤ (2 : ℚ) ^ (max (Int.log 2 a) (-1022) + 1) := by
        have : Int.log 2 a + 1 ≤ max (Int.log 2 a) (-1022) + 1 := by
          have := le_max_left (Int.log 2 a) (-1022)
          omega
        exact_mod_cast zpow_le_zpow_right₀ (by norm_num : (1 : ℚ) ≤ 2) this
      exact lt_of_lt_of_le h1 h2
    have hb_ge : (2 : ℚ) ^ (max (Int.log 2 b) (-1022)) ≤ b := by
      rw [hb_eq]
      exact_mod_cast Int.zpow_log_le_self (R := ℚ) (b := 2) (by norm_num) hbpos
    -- the rounded value of a does not exceed the next power of two
    have hna : nearest64 a ≤ (2 : ℚ) ^ (max (Int.log 2 a) (-1022) + 1) := by
      unfold nearest64
      have hq : a / ulp a ≤ ((2 ^ 53 : ℤ) : ℚ) := by
        have hc : ((2 ^ 53 : ℤ) : ℚ) = (2 : ℚ) ^ (53 : ℤ) := by norm_num
        have hexp : (53 : ℤ) + (max (Int.log 2 a) (-1022) - 52) =
            max (Int.log 2 a) (-1022) + 1 := by ring
        rw [div_le_iff₀ (ulp_pos a), hua, hc, ← zpow_add₀ (two_ne_zero), hexp]
        exact ha_lt.le
      have hr := round_half_even_mono hq
      rw [round_half_even_intCast] at hr
      have hr' : (round_half_even (a / ulp a) : ℚ) ≤ 2 ^ 53 := by exact_mod_cast hr
      calc ulp a * (round_half_even (a / ulp a) : ℚ) ≤ ulp a * 2 ^ 53 :=
            mul_le_mul_of_nonneg_left hr' (ulp_pos a).le
        _ = (2 : ℚ) ^ (max (Int.log 2 a) (-1022) + 1) := by
            rw [hua, ← zpow_natCast, ← zpow_add₀ (two_ne_zero)]
            congr 1
            push_cast
            ring
    -- the rounded value of b is at least the power of two below it
    have hnb : (2 : ℚ) ^ (max (Int.log 2 b) (-1022)) ≤ nearest64 b := by
      unfold nearest64
      have hq : ((2 ^ 52 : ℤ) : ℚ) ≤ b / ulp b := by
        have hc : ((2 ^ 52 : ℤ) : ℚ) = (2 : ℚ) ^ (52 : ℤ) := by norm_num
        have hexp : (52 : ℤ) + (max (Int.log 2 b) (-1022) - 52) =
            max (Int.log 2 b) (-1022) := by ring
        rw [le_div_iff₀ (ulp_pos b), hub, hc, ← zpow_add₀ (two_ne_zero), hexp]
        exact hb_ge
      have hr := round_half_even_mono hq
      rw [round_half_even_intCast] at hr
      have hr' : (2 : ℚ) ^ 52 ≤ (round_half_even (b / ulp b) : ℚ) := by exact_mod_cast hr
      calc (2 : ℚ) ^ (max (Int.log 2 b) (-1022)) = ulp b * 2 ^ 52 := by
            rw [hub, ← zpow_natCast, ← zpow_add₀ (two_ne_zero)]
            congr 1
            push_cast
            ring
        _ ≤ ulp b * (round_half_even (b / ulp b) : ℚ) :=
            mul_le_mul_of_nonneg_left hr' (ulp_pos b).le
    have hpow : (2 : ℚ) ^ (max (Int.log 2 a) (-1022) + 1) ≤
        (2 : ℚ) ^ (max (Int.log 2 b) (-1022)) :=
      zpow_le_zpow_right₀ (by norm_num) (by omega)
    exact le_trans hna (le_trans hpow hnb)

/-! ## Conversion lemmas -/

theorem trunc_intCast (z : ℤ) : trunc (z : ℚ) = z := by
  unfold trunc
  split <;> simp

theorem round_half_away_nonneg {q : ℚ} (h : 0 ≤ q) : 0 ≤ round_half_away q := by
  unfold round_half_away
  rw [if_pos h]
  exact Int.floor_nonneg.mpr (by linarith)

theorem to_uint32_lt (T : Target) (x : Double) : to_uint32 T x < 2 ^ 32 := by
  unfold to_uint32
  cases x with
  | finite q =>
    dsimp only
    split
    · rename_i h
      omega
    · exact Nat.mod_lt _ (by norm_num)
  | nonfinite => exact Nat.mod_lt _ (by norm_num)

theorem to_uint32_round_of_fits (T : Target) (q : ℚ) (h0 : 0 ≤ round_half_away q)
    (h1 : round_half_away q < 2 ^ 32) :
    (to_uint32 T (Double.round (Double.finite q)) : ℤ) = round_half_away q := by
  simp only [Double.round, to_uint32, trunc_intCast]
  rw [if_pos ⟨h0, h1⟩]
  exact Int.toNat_of_nonneg h0

theorem wrap_int32_bounds (z : ℤ) : -2 ^ 31 ≤ wrap_int32 z ∧ wrap_int32 z < 2 ^ 31 := by
  unfold wrap_int32
  constructor <;> omega

theorem to_int32_bounds (T : Target) (x : Double) :
    -2 ^ 31 ≤ to_int32 T x ∧ to_int32 T x < 2 ^ 31 := by
  unfold to_int32
  cases x with
  | finite q =>
    dsimp only
    split
    · rename_i h
      exact h
    · exact wrap_int32_bounds _
  | nonfinite => exact wrap_int32_bounds _

theorem to_int32_round_of_fits (T : Target) (q : ℚ) (h0 : -2 ^ 31 ≤ round_half_away q)
    (h1 : round_half_away q < 2 ^ 31) :
    to_int32 T (Double.round (Double.finite q)) = round_half_away q := by
  simp only [Double.round, to_int32, trunc_intCast]
  rw [if_pos ⟨h0, h1⟩]

theorem div_finite (a b : ℚ) (hb : b ≠ 0) : Double.div a b = Double.finite (a / b) := by
  unfold Double.div
  rw [if_neg hb]

theorem abs_lt_of_round_half_away (q : ℚ) (B : ℤ) (h : |round_half_away q| ≤ B) :
    |q| < (B : ℚ) + 1 := by
  unfold round_half_away at h
  split at h
  · rename_i hq
    rw [abs_of_nonneg hq]
    have h1 : ⌊q + 1 / 2⌋ ≤ B := le_trans (le_abs_self _) h
    have h2 : q + 1 / 2 < (⌊q + 1 / 2⌋ : ℚ) + 1 := Int.lt_floor_add_one _
    have h3 : (⌊q + 1 / 2⌋ : ℚ) ≤ (B : ℚ) := by exact_mod_cast h1
    linarith
  · rename_i hq
    rw [abs_of_neg (not_le.mp hq)]
    have h1 : ⌊-q + 1 / 2⌋ ≤ B := by
      have := neg_le_abs (-⌊-q + 1 / 2⌋)
      rw [neg_neg] at this
      exact le_trans this h
    have h2 : -q + 1 / 2 < (⌊-q + 1 / 2⌋ : ℚ) + 1 := Int.lt_floor_add_one _
    have h3 : (⌊-q + 1 / 2⌋ : ℚ) ≤ (B : ℚ) := by exact_mod_cast h1
    linarith

theorem ofRat_of_lt {q : ℚ} (h : |nearest64 q| < 2 ^ 1024) :
    Double.ofRat q = Double.finite (nearest64 q) := by
  unfold Double.ofRat
  rw [if_pos h]

theorem ofRat_eq_finite {q v : ℚ} (h : Double.ofRat q = Double.finite v) :
    v = nearest64 q ∧ |nearest64 q| < 2 ^ 1024 := by
  unfold Double.ofRat at h
  split at h
  · rename_i hlt
    exact ⟨(Double.finite.inj h).symm, hlt⟩
  · exact absurd h (by simp)

theorem ofRat_eq_nonfinite {q : ℚ} (h : Double.ofRat q = Double.nonfinite) :
    (2 : ℚ) ^ 1024 ≤ |nearest64 q| := by
  unfold Double.ofRat at h
  split at h
  · exact absurd h (by simp)
  · rename_i hlt
    exact not_lt.mp hlt

/-- A value whose rounding to an integer has magnitude at most 2^53 is far from overflow. -/
theorem ofRat_of_round_bound (q : ℚ) (h : |round_half_away (nearest64 q)| ≤ 2 ^ 53) :
    Double.ofRat q = Double.finite (nearest64 q) := by
  apply ofRat_of_lt
  have h1 := abs_lt_of_round_half_away (nearest64 q) (2 ^ 53) h
  have h2 : (((2 ^ 53 : ℤ) : ℚ)) + 1 ≤ 2 ^ 1024 := by norm_num
  exact lt_of_lt_of_le h1 h2

theorem ofRat_intCast (z : ℤ) (hz : |z| < 2 ^ 53) : Double.ofRat (z : ℚ) = Double.finite z := by
  have hn := nearest64_intCast z hz
  have hlt : |nearest64 (z : ℚ)| < 2 ^ 1024 := by
    rw [hn]
    have h1 : |(z : ℚ)| < 2 ^ 53 := by exact_mod_cast hz
    exact lt_trans h1 (by norm_num)
  rw [ofRat_of_lt hlt, hn]

/-- Evaluation of the binary64 rounding of q from the binade 2^e ≤ |q| < 2^(e+1). -/
theorem ofRat_of_exponent {q v : ℚ} {e : ℤ} (h1 : (2 : ℚ) ^ e ≤ |q|)
    (h2 : |q| < (2 : ℚ) ^ (e + 1)) (he : -1022 ≤ e)
    (hv : (2 : ℚ) ^ (e - 52) * (round_half_even (q / (2 : ℚ) ^ (e - 52)) : ℚ) = v)
    (hlt : |v| < 2 ^ 1024) : Double.ofRat q = Double.finite v := by
  have hn : nearest64 q = v := by rw [nearest64_of_exponent h1 h2 he, hv]
  rw [ofRat_of_lt (by rw [hn]; exact hlt), hn]

theorem pulse_length_of_product {rpm p : ℚ} {res : ℕ}
    (hp : Double.ofRat (rpm * (res : ℚ)) = Double.finite p) (hp0 : p ≠ 0) :
    pulse_length rpm res = Double.ofRat (60000000 / p) := by
  unfold pulse_length
  rw [hp]
  exact if_neg hp0

/-- The value set_speed hands to set_pulse_interval, and the calls it makes. -/
theorem set_speed_calls {D : Type} (T : Target) (drv : StepperDriver D) (m : Motor) (d : D)
    (log : List Call) (rpm : ℚ) :
    (set_speed T (traced drv) m (d, log) rpm).2 =
      ((set_speed T drv m d rpm).2,
        log ++ [Call.get_pulse_width,
          Call.set_pulse_interval
            ((to_uint32 T (Double.round (pulse_length rpm m.steps_per_rev_))
              + 2 ^ 32 - (drv.get_pulse_width d).1 % 2 ^ 8) % 2 ^ 32)]) := by
  simp [set_speed, traced]

/-- The driver state set_speed leaves: the pulse width is read and the 32-bit
unsigned difference is pushed. -/
theorem set_speed_pushed {D : Type} (T : Target) (drv : StepperDriver D) (m : Motor) (d : D)
    (rpm : ℚ) :
    (set_speed T drv m d rpm).2 =
      drv.set_pulse_interval (drv.get_pulse_width d).2
        ((to_uint32 T (Double.round (pulse_length rpm m.steps_per_rev_))
          + 2 ^ 32 - (drv.get_pulse_width d).1 % 2 ^ 8) % 2 ^ 32) := by
  simp [set_speed]

/-- The interval set_speed pushes when the pulse length is finite and its
rounded value fits 32 bits: the 32-bit unsigned difference of the rounded
pulse length and the pulse width. -/
theorem set_speed_interval_value {D : Type} (T : Target) (drv : StepperDriver D) (m : Motor)
    (d : D) (rpm L : ℚ) (hL : pulse_length rpm m.steps_per_rev_ = Double.finite L)
    (h0 : 0 ≤ round_half_away L) (h1 : round_half_away L < 2 ^ 32) :
    (set_speed T drv m d rpm).2 =
      drv.set_pulse_interval (drv.get_pulse_width d).2
        (((round_half_away L).toNat + 2 ^ 32 - (drv.get_pulse_width d).1 % 2 ^ 8) % 2 ^ 32) := by
  have hc := to_uint32_round_of_fits T _ h0 h1
  have hn : to_uint32 T (Double.round (Double.finite L)) = (round_half_away L).toNat := by
    omega
  simp [set_speed, hL, hn]

/-- The pulse length of the reference motor at 60 rpm is 312.5, at 120 rpm 156.25
and at 60000 rpm 0.3125: the products and the quotients are binary64 values. -/
theorem pulse_length_reference :
    pulse_length 60 motor3200.steps_per_rev_ = Double.finite (625 / 2) ∧
      pulse_length 120 motor3200.steps_per_rev_ = Double.finite (625 / 4) ∧
      pulse_length 60000 motor3200.steps_per_rev_ = Double.finite (5 / 16) := by
  have hp1 : Double.ofRat ((60 : ℚ) * ((motor3200.steps_per_rev_ : ℕ) : ℚ)) =
      Double.finite 192000 := by
    have h : (60 : ℚ) * ((motor3200.steps_per_rev_ : ℕ) : ℚ) = ((192000 : ℤ) : ℚ) := by
      norm_num [motor3200]
    rw [h, ofRat_intCast 192000 (by norm_num [abs_of_nonneg])]
    norm_num
  have hp2 : Double.ofRat ((120 : ℚ) * ((motor3200.steps_per_rev_ : ℕ) : ℚ)) =
      Double.finite 384000 := by
    have h : (120 : ℚ) * ((motor3200.steps_per_rev_ : ℕ) : ℚ) = ((384000 : ℤ) : ℚ) := by
      norm_num [motor3200]
    rw [h, ofRat_intCast 384000 (by norm_num [abs_of_nonneg])]
    norm_num
  have hp3 : Double.ofRat ((60000 : ℚ) * ((motor3200.steps_per_rev_ : ℕ) : ℚ)) =
      Double.finite 192000000 := by
    have h : (60000 : ℚ) * ((motor3200.steps_per_rev_ : ℕ) : ℚ) = ((192000000 : ℤ) : ℚ) := by
      norm_num [motor3200]
    rw [h, ofRat_intCast 192000000 (by norm_num [abs_of_nonneg])]
    norm_num
  refine ⟨?_, ?_, ?_⟩
  · rw [pulse_length_of_product hp1 (by norm_num)]
    exact ofRat_of_exponent (e := 8) (by norm_num [abs_of_nonneg]) (by norm_num [abs_of_nonneg])
      (by norm_num) (by norm_num [round_half_even]) (by norm_num [abs_of_nonneg])
  · rw [pulse_length_of_product hp2 (by norm_num)]
    exact ofRat_of_exponent (e := 7) (by norm_num [abs_of_nonneg]) (by norm_num [abs_of_nonneg])
      (by norm_num) (by norm_num [round_half_even]) (by norm_num [abs_of_nonneg])
  · rw [pulse_length_of_product hp3 (by norm_num)]
    exact ofRat_of_exponent (e := -2) (by norm_num [abs_of_nonneg]) (by norm_num [abs_of_nonneg])
      (by norm_num) (by norm_num [round_half_even]) (by norm_num [abs_of_nonneg])

/-! ## Speed control -/

/-- C1 (amended): let L be the pulse length as the code computes it in
binary64: the product rpm × resolution rounded to the nearest binary64 value,
then the quotient 60000000 / product rounded to the nearest binary64 value.
Whenever L is finite and pulse_width ≤ round(L) < 2^32, for an 8-bit driver
pulse width, set_speed reads the pulse width and then pushes exactly
round(L) − pulse_width through set_pulse_interval, round being
round-half-away-from-zero. -/
theorem set_speed_pushes_interval {D : Type} (T : Target) (drv : StepperDriver D) (m : Motor)
    (d : D) (log : List Call) (rpm L : ℚ) (pulse_width : ℕ)
    (hL : pulse_length rpm m.steps_per_rev_ = Double.finite L)
    (hpw : (drv.get_pulse_width d).1 = pulse_width) (hpw8 : pulse_width < 2 ^ 8)
    (hlo : (pulse_width : ℤ) ≤ round_half_away L)
    (hhi : round_half_away L < 2 ^ 32) :
    ∃ v : ℕ,
      (v : ℤ) = round_half_away L - pulse_width ∧
      (set_speed T (traced drv) m (d, log) rpm).2.2 =
        log ++ [Call.get_pulse_width, Call.set_pulse_interval v] ∧
      (set_speed T drv m d rpm).2 = drv.set_pulse_interval (drv.get_pulse_width d).2 v := by
  have h0 : 0 ≤ round_half_away L := le_trans (Int.ofNat_nonneg _) hlo
  have hcast := to_uint32_round_of_fits T _ h0 hhi
  have hmod : pulse_width % 2 ^ 8 = pulse_width := Nat.mod_eq_of_lt hpw8
  refine ⟨(to_uint32 T (Double.round (pulse_length rpm m.steps_per_rev_))
      + 2 ^ 32 - (drv.get_pulse_width d).1 % 2 ^ 8) % 2 ^ 32, ?_, ?_, ?_⟩
  · rw [hpw, hmod, hL]
    rw [← hcast] at hlo hhi ⊢
    omega
  · rw [set_speed_calls]
  · simp [set_speed]

/-- C1, witness: resolution 3200, 60 rpm and pulse width 2 give the pulse
length 312.5 and push round(312.5) − 2 = 311. -/
theorem set_speed_pushes_interval_witness :
    (set_speed saturating (traced simDriver) motor3200 (sim0, []) 60).2.2 =
        [Call.get_pulse_width, Call.set_pulse_interval 311] ∧
      (set_speed saturating simDriver motor3200 sim0 60).2.pulse_interval = 311 := by
  obtain ⟨v, hv, hlog, hdrv⟩ :=
    set_speed_pushes_interval saturating simDriver motor3200 sim0 [] 60 (625 / 2) 2
      pulse_length_reference.1 rfl (by norm_num)
      (by norm_num [round_half_away]) (by norm_num [round_half_away])
  have hv311 : v = 311 := by
    norm_num [round_half_away] at hv
    exact_mod_cast hv
  subst hv311
  exact ⟨by simpa using hlog, by rw [hdrv]; rfl⟩

/-- The binary64 pulse length at rpm 4166.666666666667 (the binary64 value
4581298449066667 / 2^40) and resolution 3200 is 4.5: the product rounds to
7158278826666667 / 2^29 and the quotient to 9/2, while the exact quotient
is below 4.5. -/
theorem pulse_length_rounds_up :
    pulse_length (4581298449066667 / 1099511627776) motor3200.steps_per_rev_ =
        Double.finite (9 / 2) ∧
      round_half_away (60000000 /
        (4581298449066667 / 1099511627776 * ((motor3200.steps_per_rev_ : ℕ) : ℚ))) = 4 := by
  have hp : Double.ofRat ((4581298449066667 / 1099511627776 : ℚ) *
      ((motor3200.steps_per_rev_ : ℕ) : ℚ)) = Double.finite (7158278826666667 / 536870912) := by
    have h : (4581298449066667 / 1099511627776 : ℚ) * ((motor3200.steps_per_rev_ : ℕ) : ℚ) =
        114532461226666675 / 8589934592 := by
      norm_num [motor3200]
    rw [h]
    exact ofRat_of_exponent (e := 23) (by norm_num [abs_of_nonneg])
      (by norm_num [abs_of_nonneg]) (by norm_num) (by norm_num [round_half_even])
      (by norm_num [abs_of_nonneg])
  constructor
  · rw [pulse_length_of_product hp (by norm_num)]
    exact ofRat_of_exponent (e := 2) (by norm_num [abs_of_nonneg])
      (by norm_num [abs_of_nonneg]) (by norm_num) (by norm_num [round_half_even])
      (by norm_num [abs_of_nonneg])
  · norm_num [motor3200, round_half_away]

/-- C1, counterexample: with resolution 3200 and pulse width 2, (a)
set_speed(60000) has round(0.3125) = 0, so round(60000000 / (rpm × resolution))
− pulse_width is −2; (b) set_speed(2^-18) has 4915200000, which exceeds 32
bits; (c) set_speed(4166.666666666667) has the exact quotient just below 4.5,
so the formula gives 4 − 2 = 2, while the code rounds the binary64 quotient
4.5 and pushes 3.  In none of the three is the 32-bit interval the driver
receives the value the formula gives, on any target. -/
theorem set_speed_interval_counterexample :
    ¬ ∃ T : Target,
      ((set_speed T simDriver motor3200 sim0 60000).2.pulse_interval : ℤ) =
          round_half_away (60000000 / (60000 * ((motor3200.steps_per_rev_ : ℕ) : ℚ)))
            - (sim0.pulse_width : ℤ) ∨
        ((set_speed T simDriver motor3200 sim0 (1 / 262144)).2.pulse_interval : ℤ) =
          round_half_away (60000000 / (1 / 262144 * ((motor3200.steps_per_rev_ : ℕ) : ℚ)))
            - (sim0.pulse_width : ℤ) ∨
        ((set_speed T simDriver motor3200 sim0
            (4581298449066667 / 1099511627776)).2.pulse_interval : ℤ) =
          round_half_away (60000000 /
            (4581298449066667 / 1099511627776 * ((motor3200.steps_per_rev_ : ℕ) : ℚ)))
            - (sim0.pulse_width : ℤ) := by
  rintro ⟨T, h | h | h⟩
  · have hr : round_half_away (60000000 / (60000 * ((motor3200.steps_per_rev_ : ℕ) : ℚ)))
        = 0 := by
      norm_num [motor3200, round_half_away]
    rw [hr] at h
    have hpos : (0 : ℤ) ≤ ((set_speed T simDriver motor3200 sim0 60000).2.pulse_interval : ℤ) :=
      Int.ofNat_nonneg _
    rw [h] at hpos
    norm_num [sim0] at hpos
  · have hr : round_half_away (60000000 / (1 / 262144 * ((motor3200.steps_per_rev_ : ℕ) : ℚ)))
        = 4915200000 := by
      norm_num [motor3200, round_half_away]
    rw [hr] at h
    have hlt : (set_speed T simDriver motor3200 sim0 (1 / 262144)).2.pulse_interval < 2 ^ 32 :=
      Nat.mod_lt _ (by norm_num)
    have hw : (sim0.pulse_width : ℤ) = 2 := rfl
    rw [hw] at h
    omega
  · rw [pulse_length_rounds_up.2] at h
    have hv := set_speed_interval_value T simDriver motor3200 sim0
      (4581298449066667 / 1099511627776) (9 / 2) pulse_length_rounds_up.1
      (by norm_num [round_half_away]) (by norm_num [round_half_away])
    rw [hv] at h
    have hr5 : round_half_away (9 / 2) = 5 := by norm_num [round_half_away]
    rw [hr5] at h
    simp [simDriver, sim0] at h

/-! ## Motion command -/

/-- The calls revolve makes, with the step count as the code computes it. -/
theorem revolve_calls {D : Type} (T : Target) (drv : StepperDriver D) (m : Motor) (d : D)
    (log : List Call) (r : ℚ) :
    (revolve T (traced drv) m (d, log) r).2.2 =
      log ++ [Call.set_direction (decide (0 ≤ r)),
        Call.step_for
          (to_uint32 T (Double.round (Double.ofRat (|r| * (m.steps_per_rev_ : ℚ)))))] := by
  simp [revolve, traced]

/-- The step count revolve requests when the binary64 product is finite and
its rounded value fits 32 bits. -/
theorem revolve_steps_value (T : Target) (m : Motor) (r P : ℚ)
    (hP : Double.ofRat (|r| * (m.steps_per_rev_ : ℚ)) = Double.finite P)
    (h0 : 0 ≤ round_half_away P) (h1 : round_half_away P < 2 ^ 32) :
    (to_uint32 T (Double.round (Double.ofRat (|r| * (m.steps_per_rev_ : ℚ)))) : ℤ) =
      round_half_away P := by
  rw [hP]
  exact to_uint32_round_of_fits T P h0 h1

/-- C2 (amended): let P be the binary64 product |r| × resolution (the exact
product rounded to the nearest binary64 value).  Whenever round(P) < 2^32,
revolve(r) sets the driver direction to forward if and only if r ≥ 0 and then
issues exactly one step_for request, whose count is round(P); it makes no
other driver call. -/
theorem revolve_direction_and_steps {D : Type} (T : Target) (drv : StepperDriver D) (m : Motor)
    (d : D) (log : List Call) (r : ℚ)
    (hfit : round_half_away (nearest64 (|r| * (m.steps_per_rev_ : ℚ))) < 2 ^ 32) :
    ∃ (forward : Bool) (n : ℕ),
      (forward = true ↔ 0 ≤ r) ∧
      (n : ℤ) = round_half_away (nearest64 (|r| * (m.steps_per_rev_ : ℚ))) ∧
      (revolve T (traced drv) m (d, log) r).2.2 =
        log ++ [Call.set_direction forward, Call.step_for n] ∧
      (revolve T drv m d r).2 = drv.step_for (drv.set_direction d forward) n := by
  have hx : (0 : ℚ) ≤ |r| * (m.steps_per_rev_ : ℚ) :=
    mul_nonneg (abs_nonneg r) (Nat.cast_nonneg _)
  have h0 : 0 ≤ round_half_away (nearest64 (|r| * (m.steps_per_rev_ : ℚ))) :=
    round_half_away_nonneg (nearest64_nonneg hx)
  have hP : Double.ofRat (|r| * (m.steps_per_rev_ : ℚ)) =
      Double.finite (nearest64 (|r| * (m.steps_per_rev_ : ℚ))) := by
    apply ofRat_of_round_bound
    rw [abs_of_nonneg h0]
    omega
  refine ⟨decide (0 ≤ r),
    to_uint32 T (Double.round (Double.ofRat (|r| * (m.steps_per_rev_ : ℚ)))), ?_, ?_, ?_, ?_⟩
  · simp
  · exact revolve_steps_value T m r _ hP h0 hfit
  · exact revolve_calls T drv m d log r
  · simp [revolve]

/-- The binary64 products of the reference motor: 2.5 and 1 revolutions at
resolution 3200 are 8000 and 3200 steps. -/
theorem revolve_products_reference :
    nearest64 (|(5 / 2 : ℚ)| * ((motor3200.steps_per_rev_ : ℕ) : ℚ)) = 8000 ∧
      nearest64 (|(-1 : ℚ)| * ((motor3200.steps_per_rev_ : ℕ) : ℚ)) = 3200 := by
  constructor
  · have h : |(5 / 2 : ℚ)| * ((motor3200.steps_per_rev_ : ℕ) : ℚ) = ((8000 : ℤ) : ℚ) := by
      norm_num [motor3200, abs_of_nonneg]
    rw [h, nearest64_intCast 8000 (by norm_num [abs_of_nonneg])]
    norm_num
  · have h : |(-1 : ℚ)| * ((motor3200.steps_per_rev_ : ℕ) : ℚ) = ((3200 : ℤ) : ℚ) := by
      norm_num [motor3200]
    rw [h, nearest64_intCast 3200 (by norm_num [abs_of_nonneg])]
    norm_num

/-- C2, witness: with resolution 3200, revolve(2.5) sets forward and requests 8000 steps,
revolve(-1.0) sets reverse and requests 3200 steps. -/
theorem revolve_direction_and_steps_witness :
    (revolve saturating (traced simDriver) motor3200 (sim0, []) (5 / 2)).2.2 =
        [Call.set_direction true, Call.step_for 8000] ∧
      (revolve saturating (traced simDriver) motor3200 (sim0, []) (-1)).2.2 =
        [Call.set_direction false, Call.step_for 3200] := by
  constructor
  · obtain ⟨f, n, hf, hn, hlog, -⟩ :=
      revolve_direction_and_steps saturating simDriver motor3200 sim0 [] (5 / 2)
        (by rw [revolve_products_reference.1]; norm_num [round_half_away])
    have hf1 : f = true := hf.mpr (by norm_num)
    have hn1 : n = 8000 := by
      rw [revolve_products_reference.1] at hn
      norm_num [round_half_away] at hn
      exact_mod_cast hn
    subst hf1 hn1
    simpa using hlog
  · obtain ⟨f, n, hf, hn, hlog, -⟩ :=
      revolve_direction_and_steps saturating simDriver motor3200 sim0 [] (-1)
        (by rw [revolve_products_reference.2]; norm_num [round_half_away])
    have hf1 : f = false := by
      cases f
      · rfl
      · exact absurd (hf.mp rfl) (by norm_num)
    have hn1 : n = 3200 := by
      rw [revolve_products_reference.2] at hn
      norm_num [round_half_away] at hn
      exact_mod_cast hn
    subst hf1 hn1
    simpa using hlog

/-- At resolution 3200 the binary64 value r = 1080863910568919 / 2^61
(0.00046875 to sixteen digits) has the exact product r × 3200 just below 1.5,
which rounds to 1, and the binary64 product exactly 1.5. -/
theorem product_rounds_up :
    Double.ofRat (|(1080863910568919 / 2305843009213693952 : ℚ)| *
        ((motor3200.steps_per_rev_ : ℕ) : ℚ)) = Double.finite (3 / 2) ∧
      round_half_away (|(1080863910568919 / 2305843009213693952 : ℚ)| *
        ((motor3200.steps_per_rev_ : ℕ) : ℚ)) = 1 := by
  have h : |(1080863910568919 / 2305843009213693952 : ℚ)| * ((motor3200.steps_per_rev_ : ℕ) : ℚ)
      = 27021597764222975 / 18014398509481984 := by
    norm_num [motor3200, abs_of_nonneg]
  rw [h]
  constructor
  · exact ofRat_of_exponent (e := 0) (by norm_num [abs_of_nonneg])
      (by norm_num [abs_of_nonneg]) (by norm_num) (by norm_num [round_half_even])
      (by norm_num [abs_of_nonneg])
  · norm_num [round_half_away]

/-- C2, counterexample: with resolution 3200, (a) revolve(2000000) would need
round(2000000 × 3200) = 6400000000 steps, which no 32-bit count equals; (b)
revolve(r) for the binary64 value r = 1080863910568919 / 2^61 has
round(|r| × 3200) = 1, while the code rounds the binary64 product 1.5 and
requests 2 steps.  Both hold on every target. -/
theorem revolve_steps_counterexample :
    ¬ ∃ T : Target,
      ((revolve T simDriver motor3200 sim0 2000000).2.pending : ℤ) =
          round_half_away (|(2000000 : ℚ)| * ((motor3200.steps_per_rev_ : ℕ) : ℚ)) ∨
        ((revolve T simDriver motor3200 sim0
            (1080863910568919 / 2305843009213693952)).2.pending : ℤ) =
          round_half_away (|(1080863910568919 / 2305843009213693952 : ℚ)| *
            ((motor3200.steps_per_rev_ : ℕ) : ℚ)) := by
  rintro ⟨T, h | h⟩
  · have hr : round_half_away (|(2000000 : ℚ)| * ((motor3200.steps_per_rev_ : ℕ) : ℚ))
        = 6400000000 := by
      norm_num [motor3200, round_half_away]
    rw [hr] at h
    have hlt := to_uint32_lt T
      (Double.round (Double.ofRat (|(2000000 : ℚ)| * ((motor3200.steps_per_rev_ : ℕ) : ℚ))))
    have hp : (revolve T simDriver motor3200 sim0 2000000).2.pending =
        to_uint32 T
          (Double.round (Double.ofRat (|(2000000 : ℚ)| * ((motor3200.steps_per_rev_ : ℕ) : ℚ)))) :=
      rfl
    rw [hp] at h
    omega
  · rw [product_rounds_up.2] at h
    have hp : (revolve T simDriver motor3200 sim0
        (1080863910568919 / 2305843009213693952)).2.pending =
        to_uint32 T (Double.round (Double.ofRat
          (|(1080863910568919 / 2305843009213693952 : ℚ)| *
            ((motor3200.steps_per_rev_ : ℕ) : ℚ)))) :=
      rfl
    have hv := revolve_steps_value T motor3200 (1080863910568919 / 2305843009213693952) (3 / 2)
      product_rounds_up.1 (by norm_num [round_half_away]) (by norm_num [round_half_away])
    rw [hp, hv] at h
    norm_num [round_half_away] at h

/-! ## Position tracking -/

/-- C3: step() returns exactly the flag returned by the driver's step_pulse().
When the flag is false the two position members are unchanged and the driver
receives no call besides step_pulse; when it is true position_step is the
step-tracker value read from the driver after the pulse and
position_revolutions is recomputed from it. -/
theorem step_returns_pulse_flag {D : Type} (drv : StepperDriver D) (m : Motor) (d : D)
    (log : List Call) :
    (step drv m d).1 = (drv.step_pulse d).1 ∧
      (step drv m d).2.1.position_step_ =
        (if (drv.step_pulse d).1 then (drv.get_step_tracker (drv.step_pulse d).2).1
          else m.position_step_) ∧
      (step drv m d).2.1.position_revolutions_ =
        (if (drv.step_pulse d).1 then
          Double.div (((drv.get_step_tracker (drv.step_pulse d).2).1 : ℤ) : ℚ)
            (m.steps_per_rev_ : ℚ)
          else m.position_revolutions_) ∧
      (step (traced drv) m (d, log)).2.2.2 =
        (if (drv.step_pulse d).1 then log ++ [Call.step_pulse, Call.get_step_tracker]
          else log ++ [Call.step_pulse]) := by
  cases h : (drv.step_pulse d).1 <;> simp [step, update_position, traced, h]

/-- The state update_position(double) leaves when the rounded binary64
product fits int32_t. -/
theorem update_position_rev_value {D : Type} (T : Target) (m : Motor) (d : D) (x : ℚ)
    (hlo : -2 ^ 31 ≤ round_half_away (nearest64 (x * (m.steps_per_rev_ : ℚ))))
    (hhi : round_half_away (nearest64 (x * (m.steps_per_rev_ : ℚ))) < 2 ^ 31) :
    update_position_rev T m d x =
      ({ m with
          position_step_ := round_half_away (nearest64 (x * (m.steps_per_rev_ : ℚ)))
          position_revolutions_ :=
            Double.div ((round_half_away (nearest64 (x * (m.steps_per_rev_ : ℚ))) : ℤ) : ℚ)
              (m.steps_per_rev_ : ℚ) }, d) := by
  have hP : Double.ofRat (x * (m.steps_per_rev_ : ℚ)) =
      Double.finite (nearest64 (x * (m.steps_per_rev_ : ℚ))) := by
    apply ofRat_of_round_bound
    rw [abs_le]
    constructor <;> omega
  simp [update_position_rev, hP, to_int32_round_of_fits T _ hlo hhi]

/-- At resolution 3200 the binary64 product of x = 1/2048 is 1.5625, and the
binary64 product of x = −1080863910568919 / 2^61 is −1.5, while the exact
product of the latter lies just above −1.5 and rounds to −1. -/
theorem position_products :
    nearest64 ((1 / 2048 : ℚ) * ((motor3200.steps_per_rev_ : ℕ) : ℚ)) = 25 / 16 ∧
      nearest64 ((-(1080863910568919 / 2305843009213693952) : ℚ) *
        ((motor3200.steps_per_rev_ : ℕ) : ℚ)) = -(3 / 2) ∧
      round_half_away ((-(1080863910568919 / 2305843009213693952) : ℚ) *
        ((motor3200.steps_per_rev_ : ℕ) : ℚ)) = -1 := by
  have h1 : (1 / 2048 : ℚ) * ((motor3200.steps_per_rev_ : ℕ) : ℚ) = 25 / 16 := by
    norm_num [motor3200]
  have h2 : (-(1080863910568919 / 2305843009213693952) : ℚ) *
      ((motor3200.steps_per_rev_ : ℕ) : ℚ) = -(27021597764222975 / 18014398509481984) := by
    norm_num [motor3200]
  rw [h1, h2]
  refine ⟨?_, ?_, ?_⟩
  · rw [nearest64_of_exponent (e := 0) (by norm_num [abs_of_nonneg])
      (by norm_num [abs_of_nonneg]) (by norm_num)]
    norm_num [round_half_even]
  · rw [nearest64_of_exponent (e := 0) (by norm_num [abs_of_nonneg])
      (by norm_num [abs_of_nonneg]) (by norm_num)]
    norm_num [round_half_even]
  · norm_num [round_half_away]

theorem construct_consistent {D : Type} (T : Target) (drv : StepperDriver D) (table : ℕ → ℕ)
    (lbl : String) (d : D) (n : ℕ) (speed : ℚ) :
    consistent (construct T drv table lbl d n speed).1 := by
  simp [consistent, construct, update_position, set_speed]

theorem run_op_consistent {D : Type} (T : Target) (drv : StepperDriver D) (o : Op D)
    (s : Motor × D) (h : consistent s.1) : consistent (run_op T drv o s).1 := by
  cases o with
  | revolve r => exact h
  | set_speed rpm => exact h
  | get_direction => exact h
  | update_position => simp [consistent, run_op, update_position]
  | update_position_rev x => simp [consistent, run_op, update_position_rev]
  | home => simp [consistent, run_op, home, update_position]
  | set_standbyMode b => exact h
  | active => exact h
  | step =>
    cases hp : (drv.step_pulse s.2).1
    · simpa [consistent, run_op, step, hp] using h
    · simp [consistent, run_op, step, hp, update_position]
  | label => exact h
  | driver_event f => exact h

theorem run_ops_consistent {D : Type} (T : Target) (drv : StepperDriver D) (ops : List (Op D)) :
    ∀ s : Motor × D, consistent s.1 → consistent (run_ops T drv ops s).1 := by
  induction ops with
  | nil => intro s h; exact h
  | cons o rest ih =>
    intro s h
    exact ih (run_op T drv o s) (run_op_consistent T drv o s h)

/-- C7: the relation position_revolutions = position_step / resolution holds in
the state the constructor produces and after every sequence of public
operations (revolve, set_speed, get_direction, both update_position overloads,
home, set_standbyMode, active, step, label), whatever the driver does and
however its state changes between the calls. -/
theorem position_relation_invariant {D : Type} (T : Target) (drv : StepperDriver D)
    (table : ℕ → ℕ) (lbl : String) (d : D) (n : ℕ) (speed : ℚ) (ops : List (Op D)) :
    consistent (construct T drv table lbl d n speed).1 ∧
      consistent (run_ops T drv ops (construct T drv table lbl d n speed)).1 :=
  ⟨construct_consistent T drv table lbl d n speed,
    run_ops_consistent T drv ops _ (construct_consistent T drv table lbl d n speed)⟩

/-! ## Arguments outside the nominal range -/

/-- C8 (amended): set_speed(rpm) is not rejected for any rpm, rpm ≤ 0
included: it stores rpm as the speed, reads the pulse width and pushes a
32-bit interval to the driver through set_pulse_interval; the other members are
unchanged. -/
theorem set_speed_always_accepted {D : Type} (T : Target) (drv : StepperDriver D)
    (m : Motor) (d : D) (log : List Call) (rpm : ℚ) :
    (set_speed T drv m d rpm).1 = { m with speed_ := rpm } ∧
      ∃ v : ℕ, v < 2 ^ 32 ∧
        (set_speed T (traced drv) m (d, log) rpm).2.2 =
          log ++ [Call.get_pulse_width, Call.set_pulse_interval v] ∧
        (set_speed T drv m d rpm).2 = drv.set_pulse_interval (drv.get_pulse_width d).2 v := by
  refine ⟨rfl,
    (to_uint32 T (Double.round (pulse_length rpm m.steps_per_rev_))
      + 2 ^ 32 - (drv.get_pulse_width d).1 % 2 ^ 8) % 2 ^ 32,
    Nat.mod_lt _ (by norm_num), ?_, ?_⟩
  · rw [set_speed_calls]
  · simp [set_speed]

/-- C8, counterexample: on a motor whose stored speed is 60, set_speed(-1)
does not leave the stored speed unchanged, on any target. -/
theorem set_speed_nonpositive_counterexample :
    ¬ ∃ T : Target,
      (set_speed T simDriver motor3200 sim0 (-1)).1.speed_ = motor3200.speed_ ∧
        (set_speed T simDriver motor3200 sim0 (-1)).2.pulse_interval = sim0.pulse_interval := by
  rintro ⟨T, h, -⟩
  have hs : (set_speed T simDriver motor3200 sim0 (-1)).1.speed_ = -1 := rfl
  rw [hs] at h
  norm_num [motor3200] at h

/-- C9 (the code at the failing input): with resolution 3200 and pulse width 2,
set_speed(60000) computes round(60000000 / (60000 × 3200)) = round(0.3125) = 0,
which is below the pulse width, and pushes 0 − 2 wrapped modulo 2^32, that is
4294967294, a value above the rounded pulse length. -/
theorem set_speed_underflow_wraps (T : Target) :
    round_half_away (60000000 / (60000 * ((motor3200.steps_per_rev_ : ℕ) : ℚ))) = 0 ∧
      sim0.pulse_width = 2 ∧
      (set_speed T simDriver motor3200 sim0 60000).2.pulse_interval = 4294967294 ∧
      (set_speed T (traced simDriver) motor3200 (sim0, []) 60000).2.2 =
        [Call.get_pulse_width, Call.set_pulse_interval 4294967294] := by
  have hr : round_half_away (60000000 / (60000 * ((motor3200.steps_per_rev_ : ℕ) : ℚ))) = 0 := by
    norm_num [motor3200, round_half_away]
  have hr0 : round_half_away (5 / 16) = 0 := by norm_num [round_half_away]
  have hd := set_speed_interval_value T simDriver motor3200 sim0 60000 (5 / 16)
    pulse_length_reference.2.2 (by rw [hr0]) (by rw [hr0]; norm_num)
  rw [hr0] at hd
  have hv : (set_speed T simDriver motor3200 sim0 60000).2.pulse_interval = 4294967294 := by
    rw [hd]
    simp [simDriver, sim0]
  have hc : to_uint32 T (Double.round (pulse_length 60000 motor3200.steps_per_rev_)) = 0 := by
    have h1 := to_uint32_round_of_fits T (5 / 16) (by rw [hr0]) (by rw [hr0]; norm_num)
    rw [hr0] at h1
    rw [pulse_length_reference.2.2]
    exact_mod_cast h1
  refine ⟨hr, rfl, hv, ?_⟩
  rw [set_speed_calls, hc]
  simp [simDriver, sim0]

/-! ## Construction -/

/-- C10 (amended): construction has no failure path: every construction
produces a Motor; its steps per revolution are the 32-bit product of the
nominal value and the mode multiplier, so they are > 0 exactly when that
product is not a multiple of 2^32. -/
theorem construct_resolution {D : Type} (T : Target) (drv : StepperDriver D) (table : ℕ → ℕ)
    (lbl : String) (d : D) (n : ℕ) (speed : ℚ) :
    (construct T drv table lbl d n speed).1.steps_per_rev_ =
        (n * table (drv.get_stepMode d).1) % 2 ^ 32 ∧
      (0 < (construct T drv table lbl d n speed).1.steps_per_rev_ ↔
        ¬ 2 ^ 32 ∣ n * table (drv.get_stepMode d).1) := by
  have h : (construct T drv table lbl d n speed).1.steps_per_rev_ =
      (n * table (drv.get_stepMode d).1) % 2 ^ 32 := rfl
  refine ⟨h, ?_⟩
  rw [h, Nat.dvd_iff_mod_eq_zero, Nat.pos_iff_ne_zero]

/-- C10, counterexample: construction with nominal steps per revolution 0, and
with nominal 2^28 in sixteenth-step mode (multiplier 16), returns a Motor whose
steps per revolution are 0, on every target. -/
theorem construct_zero_resolution_counterexample :
    ¬ ∃ T : Target,
      0 < (construct T simDriver simTable "M" sim0 0 60).1.steps_per_rev_ ∨
        0 < (construct T simDriver simTable "M" sim0 (2 ^ 28) 60).1.steps_per_rev_ := by
  rintro ⟨T, h | h⟩
  · have h0 : (construct T simDriver simTable "M" sim0 0 60).1.steps_per_rev_ =
        (0 * simTable (simDriver.get_stepMode sim0).1) % 2 ^ 32 := rfl
    rw [h0] at h
    simp at h
  · have h0 : (construct T simDriver simTable "M" sim0 (2 ^ 28) 60).1.steps_per_rev_ =
        (2 ^ 28 * simTable (simDriver.get_stepMode sim0).1) % 2 ^ 32 := rfl
    rw [h0] at h
    simp [simDriver, sim0, simTable] at h

/-- C11 (amended): whenever the product of the nominal steps per revolution n
and the multiplier m of the driver's step mode is below 2^32, the constructed
Motor has steps per revolution n × m. -/
theorem construct_resolution_product {D : Type} (T : Target) (drv : StepperDriver D)
    (table : ℕ → ℕ) (lbl : String) (d : D) (n : ℕ) (speed : ℚ)
    (hfit : n * table (drv.get_stepMode d).1 < 2 ^ 32) :
    (construct T drv table lbl d n speed).1.steps_per_rev_ =
      n * table (drv.get_stepMode d).1 := by
  have h : (construct T drv table lbl d n speed).1.steps_per_rev_ =
      (n * table (drv.get_stepMode d).1) % 2 ^ 32 := rfl
  rw [h, Nat.mod_eq_of_lt hfit]

/-- C11, witness: nominal 200 in sixteenth-step mode (multiplier 16) gives 3200. -/
theorem construct_resolution_product_witness :
    simTable (simDriver.get_stepMode sim0).1 = 16 ∧
      (construct saturating simDriver simTable "M" sim0 200 60).1.steps_per_rev_ = 3200 := by
  have hm : simTable (simDriver.get_stepMode sim0).1 = 16 := by
    simp [simDriver, sim0, simTable]
  refine ⟨hm, ?_⟩
  rw [construct_resolution_product saturating simDriver simTable "M" sim0 200 60
    (by rw [hm]; norm_num), hm]

/-- C11, counterexample: nominal 300000000 in sixteenth-step mode gives steps
per revolution 505032704, the product 4800000000 reduced modulo 2^32. -/
theorem construct_resolution_product_counterexample :
    ¬ ∃ T : Target,
      (construct T simDriver simTable "M" sim0 300000000 60).1.steps_per_rev_ =
        300000000 * simTable (simDriver.get_stepMode sim0).1 := by
  rintro ⟨T, h⟩
  have hv : (construct T simDriver simTable "M" sim0 300000000 60).1.steps_per_rev_ =
      505032704 := by
    have h1 : (construct T simDriver simTable "M" sim0 300000000 60).1.steps_per_rev_ =
        (300000000 * simTable (simDriver.get_stepMode sim0).1) % 2 ^ 32 := rfl
    rw [h1]
    simp [simDriver, sim0, simTable]
  rw [hv] at h
  simp [simDriver, sim0, simTable] at h

/-! ## Members no operation writes -/

theorem run_op_frame {D : Type} (T : Target) (drv : StepperDriver D) (o : Op D)
    (s : Motor × D) :
    (run_op T drv o s).1.label_ = s.1.label_ ∧
      (run_op T drv o s).1.steps_per_rev_ = s.1.steps_per_rev_ := by
  cases o with
  | revolve r => exact ⟨rfl, rfl⟩
  | set_speed rpm => exact ⟨rfl, rfl⟩
  | get_direction => exact ⟨rfl, rfl⟩
  | update_position => exact ⟨rfl, rfl⟩
  | update_position_rev x => exact ⟨rfl, rfl⟩
  | home => exact ⟨rfl, rfl⟩
  | set_standbyMode b => exact ⟨rfl, rfl⟩
  | active => exact ⟨rfl, rfl⟩
  | step =>
    cases hp : (drv.step_pulse s.2).1 <;> simp [run_op, step, hp, update_position]
  | label => exact ⟨rfl, rfl⟩
  | driver_event f => exact ⟨rfl, rfl⟩

theorem run_ops_frame {D : Type} (T : Target) (drv : StepperDriver D) (ops : List (Op D)) :
    ∀ s : Motor × D,
      (run_ops T drv ops s).1.label_ = s.1.label_ ∧
        (run_ops T drv ops s).1.steps_per_rev_ = s.1.steps_per_rev_ := by
  induction ops with
  | nil => intro s; exact ⟨rfl, rfl⟩
  | cons o rest ih =>
    intro s
    have h1 := ih (run_op T drv o s)
    have h2 := run_op_frame T drv o s
    exact ⟨h1.1.trans h2.1, h1.2.trans h2.2⟩

/-- C12: the steps per revolution fixed by the constructor are not changed by
any sequence of public operations (revolve, set_speed, get_direction, both
update_position overloads, home, set_standbyMode, active, step, label), also
when the driver state, its step mode included, changes between the calls. -/
theorem resolution_fixed_after_construction {D : Type} (T : Target) (drv : StepperDriver D)
    (table : ℕ → ℕ) (lbl : String) (d : D) (n : ℕ) (speed : ℚ) (ops : List (Op D)) :
    (run_ops T drv ops (construct T drv table lbl d n speed)).1.steps_per_rev_ =
      (construct T drv table lbl d n speed).1.steps_per_rev_ :=
  (run_ops_frame T drv ops _).2

/-! ## Frame properties -/

/-- C13: update_position(x) makes no driver call: the driver state, and with
it the record of calls the driver received, is returned as it was, and the
speed, the steps per revolution and the label of the Motor are unchanged.
A following update_position() sets position_step to the driver's tracker
value, and leaves the Motor and the driver exactly as update_position() alone
would have, whatever x was. -/
theorem update_position_rev_no_driver_call {D : Type} (T : Target) (drv : StepperDriver D)
    (m : Motor) (d : D) (log : List Call) (x : ℚ) :
    (update_position_rev T m d x).2 = d ∧
      (update_position_rev T m (d, log) x).2 = (d, log) ∧
      (update_position_rev T m d x).1.speed_ = m.speed_ ∧
      (update_position_rev T m d x).1.steps_per_rev_ = m.steps_per_rev_ ∧
      (update_position_rev T m d x).1.label_ = m.label_ ∧
      (update_position drv (update_position_rev T m d x).1
        (update_position_rev T m d x).2).2.1.position_step_ = (drv.get_step_tracker d).1 ∧
      update_position drv (update_position_rev T m d x).1 (update_position_rev T m d x).2 =
        update_position drv m d :=
  ⟨rfl, rfl, rfl, rfl, rfl, rfl, rfl⟩

/-- C14: get_direction() returns the value of the driver's get_direction() and
active() the value of the driver's active(); each leaves the Motor unchanged
and sends the driver that one query and nothing else.  label() returns the
label given to the constructor, after any sequence of operations, and takes
no driver at all. -/
theorem accessors_pass_through {D : Type} (T : Target) (drv : StepperDriver D) (m : Motor)
    (d : D) (log : List Call) (table : ℕ → ℕ) (lbl : String) (n : ℕ) (speed : ℚ)
    (ops : List (Op D)) :
    ((get_direction drv m d).1 = (drv.get_direction d).1 ∧
        (get_direction drv m d).2.1 = m ∧
        (get_direction (traced drv) m (d, log)).2.2.2 = log ++ [Call.get_direction]) ∧
      ((active drv m d).1 = (drv.active d).1 ∧
        (active drv m d).2.1 = m ∧
        (active (traced drv) m (d, log)).2.2.2 = log ++ [Call.active]) ∧
      label (construct T drv table lbl d n speed).1 = lbl ∧
      label (run_ops T drv ops (construct T drv table lbl d n speed)).1 = lbl :=
  ⟨⟨rfl, rfl, rfl⟩, ⟨rfl, rfl, rfl⟩, rfl, (run_ops_frame T drv ops _).1⟩

/-- C15: revolve(r) leaves every member of the Motor (position_step,
position_revolutions, speed, steps per revolution, label) unchanged; the
driver receives one set_direction followed by one step_for and nothing else. -/
theorem revolve_fire_and_forget {D : Type} (T : Target) (drv : StepperDriver D) (m : Motor)
    (d : D) (log : List Call) (r : ℚ) :
    (revolve T drv m d r).1 = m ∧
      ∃ (forward : Bool) (n : ℕ),
        (revolve T (traced drv) m (d, log) r).2.2 =
          log ++ [Call.set_direction forward, Call.step_for n] ∧
        (revolve T drv m d r).2 = drv.step_for (drv.set_direction d forward) n := by
  refine ⟨rfl, decide (0 ≤ r),
    to_uint32 T (Double.round (Double.ofRat (|r| * (m.steps_per_rev_ : ℚ)))), ?_, rfl⟩
  simp [revolve, traced]

/-! ## Algebraic relations -/

theorem round_half_away_intCast (z : ℤ) : round_half_away (z : ℚ) = z := by
  unfold round_half_away
  have hfl : ⌊(1 / 2 : ℚ)⌋ = 0 := by norm_num
  split
  · rw [Int.floor_int_add, hfl, add_zero]
  · have hneg : -(z : ℚ) = ((-z : ℤ) : ℚ) := by push_cast; rfl
    rw [hneg, Int.floor_int_add, hfl, add_zero, neg_neg]

theorem round_half_away_mono {a b : ℚ} (ha : 0 ≤ a) (hab : a ≤ b) :
    round_half_away a ≤ round_half_away b := by
  unfold round_half_away
  rw [if_pos ha, if_pos (le_trans ha hab)]
  exact Int.floor_le_floor (by linarith)

/-- C16: for a resolution > 0 and every x, update_position(x) stores a finite
position_revolutions q, and update_position(q) on the resulting Motor leaves
the Motor (position_step and position_revolutions included) and the driver
exactly as the first call left them. -/
theorem update_position_rev_idempotent {D : Type} (T : Target) (m : Motor) (d : D) (x : ℚ)
    (hres : 0 < m.steps_per_rev_) :
    ∃ q : ℚ,
      (update_position_rev T m d x).1.position_revolutions_ = Double.finite q ∧
      update_position_rev T (update_position_rev T m d x).1 (update_position_rev T m d x).2 q =
        update_position_rev T m d x := by
  have hden : (m.steps_per_rev_ : ℚ) ≠ 0 := by
    exact_mod_cast (Nat.pos_iff_ne_zero.mp hres)
  have hk := to_int32_bounds T (Double.round (Double.ofRat (x * (m.steps_per_rev_ : ℚ))))
  have h2 : to_int32 T (Double.round (Double.ofRat
      (((to_int32 T (Double.round (Double.ofRat (x * (m.steps_per_rev_ : ℚ)))) : ℤ) : ℚ)
        / (m.steps_per_rev_ : ℚ) * (m.steps_per_rev_ : ℚ)))) =
      to_int32 T (Double.round (Double.ofRat (x * (m.steps_per_rev_ : ℚ)))) := by
    rw [div_mul_cancel₀ _ hden, ofRat_intCast _ (by rw [abs_lt]; constructor <;> omega)]
    have hfit := to_int32_round_of_fits T
      ((to_int32 T (Double.round (Double.ofRat (x * (m.steps_per_rev_ : ℚ)))) : ℤ) : ℚ)
      (by rw [round_half_away_intCast]; exact hk.1) (by rw [round_half_away_intCast]; exact hk.2)
    rw [hfit, round_half_away_intCast]
  refine ⟨((to_int32 T (Double.round (Double.ofRat (x * (m.steps_per_rev_ : ℚ)))) : ℤ) : ℚ)
    / (m.steps_per_rev_ : ℚ), ?_, ?_⟩
  · simp [update_position_rev, div_finite _ _ hden]
  · simp only [update_position_rev]
    rw [h2]

/-- C16, witness: with resolution 3200, update_position(1/2048) stores 2 steps
and 1/1600 revolutions, and update_position(1/1600) after it changes nothing. -/
theorem update_position_rev_idempotent_witness :
    (update_position_rev saturating motor3200 sim0 (1 / 2048)).1.position_revolutions_ =
        Double.finite (1 / 1600) ∧
      update_position_rev saturating (update_position_rev saturating motor3200 sim0 (1 / 2048)).1
          (update_position_rev saturating motor3200 sim0 (1 / 2048)).2 (1 / 1600) =
        update_position_rev saturating motor3200 sim0 (1 / 2048) := by
  have hv : (update_position_rev saturating motor3200 sim0 (1 / 2048)).1.position_revolutions_ =
      Double.finite (1 / 1600) := by
    rw [update_position_rev_value saturating motor3200 sim0 (1 / 2048)
      (by rw [position_products.1]; norm_num [round_half_away])
      (by rw [position_products.1]; norm_num [round_half_away]), position_products.1]
    norm_num [motor3200, round_half_away, Double.div]
  obtain ⟨q, hq, h⟩ :=
    update_position_rev_idempotent saturating motor3200 sim0 (1 / 2048) (by norm_num [motor3200])
  have hq1 : q = 1 / 1600 := by
    rw [hv] at hq
    exact (Double.finite.inj hq).symm
  subst hq1
  exact ⟨hv, h⟩

/-- C17: for r ≠ 0, revolve(r) and revolve(−r) hand the same step count to
step_for and opposite directions to set_direction; revolve(0) sets the
direction forward and requests 0 steps. -/
theorem revolve_sign_symmetry {D : Type} (T : Target) (drv : StepperDriver D) (m : Motor)
    (d : D) (log : List Call) (r : ℚ) (hr : r ≠ 0) :
    ∃ (forward : Bool) (n : ℕ),
      (revolve T (traced drv) m (d, log) r).2.2 =
        log ++ [Call.set_direction forward, Call.step_for n] ∧
      (revolve T (traced drv) m (d, log) (-r)).2.2 =
        log ++ [Call.set_direction (!forward), Call.step_for n] ∧
      (revolve T (traced drv) m (d, log) 0).2.2 =
        log ++ [Call.set_direction true, Call.step_for 0] := by
  refine ⟨decide (0 ≤ r),
    to_uint32 T (Double.round (Double.ofRat (|r| * (m.steps_per_rev_ : ℚ)))), ?_, ?_, ?_⟩
  · exact revolve_calls T drv m d log r
  · rw [revolve_calls, abs_neg]
    have hdir : decide (0 ≤ -r) = !decide (0 ≤ r) := by
      rcases lt_or_gt_of_ne hr with h | h
      · have h1 : 0 ≤ -r := by linarith
        have h2 : ¬ 0 ≤ r := by linarith
        simp [h1, h2]
      · have h1 : ¬ 0 ≤ -r := by linarith
        have h2 : 0 ≤ r := by linarith
        simp [h1, h2]
    rw [hdir]
  · rw [revolve_calls]
    have hz : to_uint32 T (Double.round (Double.ofRat (|(0 : ℚ)| * (m.steps_per_rev_ : ℚ))))
        = 0 := by
      have hx : |(0 : ℚ)| * (m.steps_per_rev_ : ℚ) = ((0 : ℤ) : ℚ) := by simp
      have h0 : round_half_away ((0 : ℤ) : ℚ) = 0 := round_half_away_intCast 0
      have hc := to_uint32_round_of_fits T ((0 : ℤ) : ℚ) (by rw [h0]) (by rw [h0]; norm_num)
      rw [h0] at hc
      rw [hx, ofRat_intCast 0 (by norm_num)]
      exact_mod_cast hc
    rw [hz]
    simp

/-- C17, witness: with resolution 3200, revolve(2.5) requests 8000 steps
forward, so revolve(-2.5) requests 8000 steps in reverse. -/
theorem revolve_sign_symmetry_witness :
    (revolve saturating (traced simDriver) motor3200 (sim0, []) (-(5 / 2))).2.2 =
        [Call.set_direction false, Call.step_for 8000] ∧
      (revolve saturating (traced simDriver) motor3200 (sim0, []) 0).2.2 =
        [Call.set_direction true, Call.step_for 0] := by
  obtain ⟨f, n, h1, h2, h3⟩ :=
    revolve_sign_symmetry saturating simDriver motor3200 sim0 [] (5 / 2) (by norm_num)
  have hn : to_uint32 saturating
      (Double.round (Double.ofRat (|(5 / 2 : ℚ)| * ((motor3200.steps_per_rev_ : ℕ) : ℚ)))) =
      8000 := by
    have h0 : round_half_away (8000 : ℚ) = 8000 := by norm_num [round_half_away]
    have hP : Double.ofRat (|(5 / 2 : ℚ)| * ((motor3200.steps_per_rev_ : ℕ) : ℚ)) =
        Double.finite 8000 := by
      rw [ofRat_of_round_bound _ (by rw [revolve_products_reference.1, h0]; norm_num),
        revolve_products_reference.1]
    have hc := revolve_steps_value saturating motor3200 (5 / 2) 8000 hP
      (by rw [h0]; norm_num) (by rw [h0]; norm_num)
    rw [h0] at hc
    exact_mod_cast hc
  rw [revolve_calls, hn] at h1
  have hd : decide ((0 : ℚ) ≤ 5 / 2) = true := by
    rw [decide_eq_true_eq]
    norm_num
  rw [hd] at h1
  simp only [List.nil_append, List.cons.injEq, Call.set_direction.injEq, Call.step_for.injEq,
    and_true] at h1
  obtain ⟨hf, hn8⟩ := h1
  subst hf hn8
  exact ⟨by simpa using h2, by simpa using h3⟩

/-- The pulse length the code computes does not grow with the speed: for
0 < rpm1 ≤ rpm2 with finite pulse lengths L1 and L2, 0 ≤ L2 ≤ L1. -/
theorem pulse_length_antitone {rpm1 rpm2 L1 L2 : ℚ} {res : ℕ} (h1 : 0 < rpm1)
    (h12 : rpm1 ≤ rpm2) (hL1 : pulse_length rpm1 res = Double.finite L1)
    (hL2 : pulse_length rpm2 res = Double.finite L2) : 0 ≤ L2 ∧ L2 ≤ L1 := by
  have hres : (0 : ℚ) ≤ (res : ℚ) := Nat.cast_nonneg _
  have ha1 : (0 : ℚ) ≤ rpm1 * (res : ℚ) := mul_nonneg h1.le hres
  have ha12 : rpm1 * (res : ℚ) ≤ rpm2 * (res : ℚ) := mul_le_mul_of_nonneg_right h12 hres
  have hn1 := nearest64_nonneg ha1
  have hn12 := nearest64_mono ha1 ha12
  unfold pulse_length at hL1 hL2
  rcases hp1 : Double.ofRat (rpm1 * (res : ℚ)) with p1 | _
  · rw [hp1] at hL1
    dsimp only at hL1
    have hp1v := (ofRat_eq_finite hp1).1
    by_cases hz : p1 = 0
    · rw [if_pos hz] at hL1
      exact absurd hL1 (by simp)
    rw [if_neg hz] at hL1
    have hp1pos : 0 < p1 := lt_of_le_of_ne (by rw [hp1v]; exact hn1) (Ne.symm hz)
    have hL1v := (ofRat_eq_finite hL1).1
    have hq1 : (0 : ℚ) ≤ 60000000 / p1 := by positivity
    rcases hp2 : Double.ofRat (rpm2 * (res : ℚ)) with p2 | _
    · rw [hp2] at hL2
      dsimp only at hL2
      have hp2v := (ofRat_eq_finite hp2).1
      have hp12 : p1 ≤ p2 := by rw [hp1v, hp2v]; exact hn12
      have hp2pos : 0 < p2 := lt_of_lt_of_le hp1pos hp12
      rw [if_neg hp2pos.ne'] at hL2
      have hL2v := (ofRat_eq_finite hL2).1
      have hq2 : (0 : ℚ) ≤ 60000000 / p2 := by positivity
      have hq : (60000000 : ℚ) / p2 ≤ 60000000 / p1 :=
        div_le_div_of_nonneg_left (by norm_num) hp1pos hp12
      rw [hL1v, hL2v]
      exact ⟨nearest64_nonneg hq2, nearest64_mono hq2 hq⟩
    · rw [hp2] at hL2
      dsimp only at hL2
      have hL2v : L2 = 0 := (Double.finite.inj hL2).symm
      rw [hL2v, hL1v]
      exact ⟨le_rfl, nearest64_nonneg hq1⟩
  · rw [hp1] at hL1
    dsimp only at hL1
    have hL1v : L1 = 0 := (Double.finite.inj hL1).symm
    have hbig := ofRat_eq_nonfinite hp1
    rw [abs_of_nonneg hn1] at hbig
    have hbig2 : (2 : ℚ) ^ 1024 ≤ |nearest64 (rpm2 * (res : ℚ))| := by
      rw [abs_of_nonneg (le_trans hn1 hn12)]
      exact le_trans hbig hn12
    have hp2 : Double.ofRat (rpm2 * (res : ℚ)) = Double.nonfinite := by
      unfold Double.ofRat
      rw [if_neg (not_lt.mpr hbig2)]
    rw [hp2] at hL2
    dsimp only at hL2
    have hL2v : L2 = 0 := (Double.finite.inj hL2).symm
    rw [hL1v, hL2v]
    exact ⟨le_rfl, le_rfl⟩

/-- C18 (amended): let L1 and L2 be the pulse lengths the code computes in
binary64 for rpm1 and rpm2 (product, then quotient, each rounded to the
nearest binary64 value).  For an 8-bit pulse width and 0 < rpm1 ≤ rpm2 with
L1, L2 finite, pulse_width ≤ round(L2) and round(L1) < 2^32, the interval
set_speed(rpm2) pushes to the driver is less than or equal to the one
set_speed(rpm1) pushes. -/
theorem set_speed_antitone {D : Type} (T : Target) (drv : StepperDriver D) (m : Motor) (d : D)
    (log : List Call) (rpm1 rpm2 L1 L2 : ℚ) (pulse_width : ℕ)
    (hrpm : 0 < rpm1) (hle : rpm1 ≤ rpm2)
    (hL1 : pulse_length rpm1 m.steps_per_rev_ = Double.finite L1)
    (hL2 : pulse_length rpm2 m.steps_per_rev_ = Double.finite L2)
    (hpw : (drv.get_pulse_width d).1 = pulse_width) (hpw8 : pulse_width < 2 ^ 8)
    (hlo : (pulse_width : ℤ) ≤ round_half_away L2)
    (hhi : round_half_away L1 < 2 ^ 32) :
    ∃ v1 v2 : ℕ,
      (set_speed T (traced drv) m (d, log) rpm1).2.2 =
        log ++ [Call.get_pulse_width, Call.set_pulse_interval v1] ∧
      (set_speed T (traced drv) m (d, log) rpm2).2.2 =
        log ++ [Call.get_pulse_width, Call.set_pulse_interval v2] ∧
      (set_speed T drv m d rpm1).2 = drv.set_pulse_interval (drv.get_pulse_width d).2 v1 ∧
      (set_speed T drv m d rpm2).2 = drv.set_pulse_interval (drv.get_pulse_width d).2 v2 ∧
      v2 ≤ v1 := by
  obtain ⟨hL20, hL21⟩ := pulse_length_antitone hrpm hle hL1 hL2
  have hmono := round_half_away_mono hL20 hL21
  have h20 : 0 ≤ round_half_away L2 := round_half_away_nonneg hL20
  have hc1 := to_uint32_round_of_fits T L1 (le_trans h20 hmono) hhi
  have hc2 := to_uint32_round_of_fits T L2 h20 (lt_of_le_of_lt hmono hhi)
  have hmod : pulse_width % 2 ^ 8 = pulse_width := Nat.mod_eq_of_lt hpw8
  refine ⟨(to_uint32 T (Double.round (pulse_length rpm1 m.steps_per_rev_))
      + 2 ^ 32 - (drv.get_pulse_width d).1 % 2 ^ 8) % 2 ^ 32,
    (to_uint32 T (Double.round (pulse_length rpm2 m.steps_per_rev_))
      + 2 ^ 32 - (drv.get_pulse_width d).1 % 2 ^ 8) % 2 ^ 32, ?_, ?_, ?_, ?_, ?_⟩
  · rw [set_speed_calls]
  · rw [set_speed_calls]
  · simp [set_speed]
  · simp [set_speed]
  · rw [hpw, hmod, hL1, hL2]
    rw [← hc1, ← hc2] at hmono
    rw [← hc2] at hlo
    rw [← hc1] at hhi
    omega

/-- C18, witness: with resolution 3200 and pulse width 2, set_speed(120) pushes
an interval no longer than the one set_speed(60) pushes. -/
theorem set_speed_antitone_witness :
    (set_speed saturating simDriver motor3200 sim0 120).2.pulse_interval ≤
      (set_speed saturating simDriver motor3200 sim0 60).2.pulse_interval := by
  obtain ⟨v1, v2, -, -, h1, h2, hle⟩ :=
    set_speed_antitone saturating simDriver motor3200 sim0 [] 60 120 (625 / 2) (625 / 4) 2
      (by norm_num) (by norm_num) pulse_length_reference.1 pulse_length_reference.2.1
      rfl (by norm_num)
      (by norm_num [round_half_away]) (by norm_num [round_half_away])
  rw [h1, h2]
  exact hle

/-- The pulse lengths of the reference motor at the binary64 speeds 2^-18 and
5 × 2^-20 are the integers 4915200000, above 2^32, and 3932160000. -/
theorem pulse_length_slow :
    pulse_length (1 / 262144) motor3200.steps_per_rev_ = Double.finite 4915200000 ∧
      pulse_length (5 / 1048576) motor3200.steps_per_rev_ = Double.finite 3932160000 := by
  have hp1 : Double.ofRat ((1 / 262144 : ℚ) * ((motor3200.steps_per_rev_ : ℕ) : ℚ)) =
      Double.finite (25 / 2048) := by
    have h : (1 / 262144 : ℚ) * ((motor3200.steps_per_rev_ : ℕ) : ℚ) = 25 / 2048 := by
      norm_num [motor3200]
    rw [h]
    exact ofRat_of_exponent (e := -7) (by norm_num [abs_of_nonneg])
      (by norm_num [abs_of_nonneg]) (by norm_num) (by norm_num [round_half_even])
      (by norm_num [abs_of_nonneg])
  have hp2 : Double.ofRat ((5 / 1048576 : ℚ) * ((motor3200.steps_per_rev_ : ℕ) : ℚ)) =
      Double.finite (125 / 8192) := by
    have h : (5 / 1048576 : ℚ) * ((motor3200.steps_per_rev_ : ℕ) : ℚ) = 125 / 8192 := by
      norm_num [motor3200]
    rw [h]
    exact ofRat_of_exponent (e := -7) (by norm_num [abs_of_nonneg])
      (by norm_num [abs_of_nonneg]) (by norm_num) (by norm_num [round_half_even])
      (by norm_num [abs_of_nonneg])
  constructor
  · rw [pulse_length_of_product hp1 (by norm_num)]
    have h : (60000000 : ℚ) / (25 / 2048) = ((4915200000 : ℤ) : ℚ) := by norm_num
    rw [h, ofRat_intCast _ (by norm_num [abs_of_nonneg])]
    norm_num
  · rw [pulse_length_of_product hp2 (by norm_num)]
    have h : (60000000 : ℚ) / (125 / 8192) = ((3932160000 : ℤ) : ℚ) := by norm_num
    rw [h, ofRat_intCast _ (by norm_num [abs_of_nonneg])]
    norm_num

/-- On the reference motor with pulse width 2, set_speed(60) pushes 311 and
set_speed(60000) pushes 4294967294, on every target. -/
theorem set_speed_reference_intervals (T : Target) :
    (set_speed T simDriver motor3200 sim0 60).2.pulse_interval = 311 ∧
      (set_speed T simDriver motor3200 sim0 60000).2.pulse_interval = 4294967294 := by
  have hr1 : round_half_away (625 / 2) = 313 := by norm_num [round_half_away]
  have hr2 : round_half_away (5 / 16) = 0 := by norm_num [round_half_away]
  have h1 := set_speed_interval_value T simDriver motor3200 sim0 60 (625 / 2)
    pulse_length_reference.1 (by rw [hr1]; norm_num) (by rw [hr1]; norm_num)
  have h2 := set_speed_interval_value T simDriver motor3200 sim0 60000 (5 / 16)
    pulse_length_reference.2.2 (by rw [hr2]) (by rw [hr2]; norm_num)
  rw [h1, h2, hr1, hr2]
  constructor <;> simp [simDriver, sim0]

/-- The conversion of 4915200000 on the target that keeps the low 32 bits. -/
theorem truncating_conversion :
    to_uint32 truncating (Double.round (Double.finite 4915200000)) = 620232704 := by
  have hq : (4915200000 : ℚ) = ((4915200000 : ℤ) : ℚ) := by norm_num
  simp only [Double.round, hq, round_half_away_intCast, to_uint32, trunc_intCast, truncating]
  norm_num [Int.toNat]

/-- On the target that keeps the low 32 bits, the reference motor with pulse
width 2 pushes 620232702 at the speed 2^-18. -/
theorem set_speed_slow_interval :
    (set_speed truncating simDriver motor3200 sim0 (1 / 262144)).2.pulse_interval =
      620232702 := by
  rw [set_speed_pushed, pulse_length_slow.1, truncating_conversion]
  simp [simDriver, sim0]

/-- On every target the reference motor with pulse width 2 pushes 3932159998
at the speed 5 × 2^-20. -/
theorem set_speed_less_slow_interval (T : Target) :
    (set_speed T simDriver motor3200 sim0 (5 / 1048576)).2.pulse_interval = 3932159998 := by
  have hr : round_half_away (3932160000 : ℚ) = 3932160000 := by
    norm_num [round_half_away]
  have h2 := set_speed_interval_value T simDriver motor3200 sim0 (5 / 1048576)
    3932160000 pulse_length_slow.2 (by rw [hr]; norm_num) (by rw [hr]; norm_num)
  rw [h2, hr]
  simp [simDriver, sim0]

/-- C18, counterexample: with resolution 3200 and pulse width 2, set_speed(60)
pushes 311 and the faster set_speed(60000) pushes 4294967294, on every target;
and on a target that keeps the low 32 bits, the slower set_speed(2^-18), whose
pulse length 4915200000 exceeds 32 bits, pushes 620232702, less than the
3932159998 of the faster set_speed(5 × 2^-20). -/
theorem set_speed_antitone_counterexample :
    (¬ ∃ T : Target,
      (set_speed T simDriver motor3200 sim0 60000).2.pulse_interval ≤
        (set_speed T simDriver motor3200 sim0 60).2.pulse_interval) ∧
      ¬ (set_speed truncating simDriver motor3200 sim0 (5 / 1048576)).2.pulse_interval ≤
        (set_speed truncating simDriver motor3200 sim0 (1 / 262144)).2.pulse_interval := by
  constructor
  · rintro ⟨T, h⟩
    rw [(set_speed_reference_intervals T).1, (set_speed_reference_intervals T).2] at h
    omega
  · rw [set_speed_less_slow_interval truncating, set_speed_slow_interval]
    omega


/-! ## Idempotence with the stored binary64 quotient -/

theorem round_half_even_error (t : ℚ) : |(round_half_even t : ℚ) - t| ≤ 1 / 2 := by
  have h1 : (⌊t⌋ : ℚ) ≤ t := Int.floor_le t
  have h2 : t < (⌊t⌋ : ℚ) + 1 := Int.lt_floor_add_one t
  unfold round_half_even
  rw [abs_le]
  split_ifs <;> push_cast <;> constructor <;> linarith

/-- In the normal range the binary64 rounding has relative error at most 2^-53. -/
theorem nearest64_rel_error {q : ℚ} (hq : (2 : ℚ) ^ (-1022 : ℤ) ≤ |q|) :
    |nearest64 q - q| ≤ |q| * (1 / 2 ^ 53) := by
  have hpos : 0 < |q| := lt_of_lt_of_le (by positivity) hq
  have he : -1022 ≤ Int.log 2 |q| :=
    (Int.zpow_le_iff_le_log (by norm_num) hpos).mp (by exact_mod_cast hq)
  have hu : ulp q = (2 : ℚ) ^ (Int.log 2 |q| - 52) := by
    unfold ulp
    rw [max_eq_left he]
  have hupos := ulp_pos q
  have hle : (2 : ℚ) ^ (Int.log 2 |q|) ≤ |q| := by
    exact_mod_cast Int.zpow_log_le_self (R := ℚ) (b := 2) (by norm_num) hpos
  have hulp : ulp q ≤ |q| * (1 / 2 ^ 52) := by
    have h52 : (2 : ℚ) ^ (Int.log 2 |q| - 52) = (2 : ℚ) ^ (Int.log 2 |q|) * (1 / 2 ^ 52) := by
      rw [zpow_sub₀ (two_ne_zero), div_eq_mul_one_div]
      norm_num
    rw [hu, h52]
    exact mul_le_mul_of_nonneg_right hle (by positivity)
  have herr := round_half_even_error (q / ulp q)
  have hdecomp : nearest64 q - q = ulp q * ((round_half_even (q / ulp q) : ℚ) - q / ulp q) := by
    unfold nearest64
    field_simp
    ring
  rw [hdecomp, abs_mul, abs_of_pos hupos]
  calc ulp q * |(round_half_even (q / ulp q) : ℚ) - q / ulp q| ≤ ulp q * (1 / 2) :=
        mul_le_mul_of_nonneg_left herr hupos.le
    _ ≤ |q| * (1 / 2 ^ 52) * (1 / 2) := mul_le_mul_of_nonneg_right hulp (by norm_num)
    _ = |q| * (1 / 2 ^ 53) := by ring

theorem round_half_away_of_near (y : ℚ) (k : ℤ) (h : |y - (k : ℚ)| < 1 / 2) :
    round_half_away y = k := by
  rw [abs_lt] at h
  unfold round_half_away
  split
  · rw [Int.floor_eq_iff]
    constructor <;> linarith [h.1, h.2]
  · rename_i hy
    have hy' : y < 0 := not_le.mp hy
    have : ⌊-y + 1 / 2⌋ = -k := by
      rw [Int.floor_eq_iff]
      push_cast
      constructor
      · linarith [h.1, h.2]
      · -- strictness needs care at the tie; use that y < 0 and the bound
        linarith [h.1, h.2]
    rw [this, neg_neg]

/-- For a 32-bit signed k and a 32-bit unsigned n > 0, the binary64 product of
n with the binary64 quotient k / n is within 1/2 of k. -/
theorem stored_quotient_product_near (k : ℤ) (n : ℕ) (hk : -2 ^ 31 ≤ k ∧ k < 2 ^ 31)
    (hn : 0 < n) (hn32 : n < 2 ^ 32) :
    |nearest64 (nearest64 ((k : ℚ) / (n : ℚ)) * (n : ℚ)) - (k : ℚ)| < 1 / 2 := by
  have hn0 : (0 : ℚ) < (n : ℚ) := by exact_mod_cast hn
  have hn32' : (n : ℚ) < 2 ^ 32 := by exact_mod_cast hn32
  have hkabs : |(k : ℚ)| ≤ 2 ^ 31 := by
    rw [abs_le]
    constructor
    · have : (-2 ^ 31 : ℤ) ≤ k := hk.1
      exact_mod_cast this
    · have : k ≤ (2 ^ 31 : ℤ) := le_of_lt hk.2
      exact_mod_cast this
  rcases eq_or_ne k 0 with h0 | h0
  · subst h0
    simp [nearest64_zero]
  have hk1 : (1 : ℚ) ≤ |(k : ℚ)| := by
    have : (1 : ℤ) ≤ |k| := Int.one_le_abs h0
    exact_mod_cast this
  have hqabs : |(k : ℚ) / (n : ℚ)| = |(k : ℚ)| / (n : ℚ) := by
    rw [abs_div, abs_of_pos hn0]
  have hsmall : (2 : ℚ) ^ (-1022 : ℤ) ≤ 1 / 2 ^ 32 := by
    have h1 : (2 : ℚ) ^ (-1022 : ℤ) ≤ (2 : ℚ) ^ (-32 : ℤ) :=
      zpow_le_zpow_right₀ (by norm_num) (by norm_num)
    have h2 : (2 : ℚ) ^ (-32 : ℤ) = 1 / 2 ^ 32 := by norm_num
    rw [h2] at h1
    exact h1
  have hq_lo : (2 : ℚ) ^ (-1022 : ℤ) ≤ |(k : ℚ) / (n : ℚ)| := by
    rw [hqabs]
    refine le_trans hsmall ?_
    rw [div_le_div_iff₀ (by positivity) hn0]
    nlinarith
  have he1 := nearest64_rel_error hq_lo
  have hp : nearest64 ((k : ℚ) / (n : ℚ)) * (n : ℚ) - (k : ℚ) =
      (nearest64 ((k : ℚ) / (n : ℚ)) - (k : ℚ) / (n : ℚ)) * (n : ℚ) := by
    field_simp
  have hperr : |nearest64 ((k : ℚ) / (n : ℚ)) * (n : ℚ) - (k : ℚ)| ≤
      |(k : ℚ)| * (1 / 2 ^ 53) := by
    rw [hp, abs_mul, abs_of_pos hn0]
    calc |nearest64 ((k : ℚ) / (n : ℚ)) - (k : ℚ) / (n : ℚ)| * (n : ℚ)
        ≤ |(k : ℚ) / (n : ℚ)| * (1 / 2 ^ 53) * (n : ℚ) :=
          mul_le_mul_of_nonneg_right he1 hn0.le
      _ = |(k : ℚ)| * (1 / 2 ^ 53) := by
          rw [hqabs]
          field_simp
          ring
  generalize nearest64 ((k : ℚ) / (n : ℚ)) * (n : ℚ) = p at hperr ⊢
  have hpk : |p - (k : ℚ)| ≤ 1 / 2 ^ 22 := by
    refine le_trans hperr ?_
    calc |(k : ℚ)| * (1 / 2 ^ 53) ≤ 2 ^ 31 * (1 / 2 ^ 53) :=
          mul_le_mul_of_nonneg_right hkabs (by positivity)
      _ = 1 / 2 ^ 22 := by norm_num
  have hp_hi : |p| ≤ 2 ^ 31 + 1 := by
    have := abs_sub_abs_le_abs_sub p (k : ℚ)
    have h3 : (1 : ℚ) / 2 ^ 22 ≤ 1 := by norm_num
    linarith
  have hp_lo : (1 : ℚ) / 2 ≤ |p| := by
    have := abs_sub_abs_le_abs_sub (k : ℚ) p
    rw [abs_sub_comm] at this
    have h3 : (1 : ℚ) / 2 ^ 22 ≤ 1 / 2 := by norm_num
    linarith
  have hp_norm : (2 : ℚ) ^ (-1022 : ℤ) ≤ |p| := by
    have h4 : (1 : ℚ) / 2 ^ 32 ≤ 1 / 2 := by norm_num
    exact le_trans hsmall (le_trans h4 hp_lo)
  have he2 := nearest64_rel_error hp_norm
  have he2' : |nearest64 p - p| ≤ 1 / 2 ^ 21 := by
    refine le_trans he2 ?_
    calc |p| * (1 / 2 ^ 53) ≤ (2 ^ 31 + 1) * (1 / 2 ^ 53) :=
          mul_le_mul_of_nonneg_right hp_hi (by positivity)
      _ ≤ 1 / 2 ^ 21 := by norm_num
  have htri : |nearest64 p - (k : ℚ)| ≤ |nearest64 p - p| + |p - (k : ℚ)| := by
    have := abs_add (nearest64 p - p) (p - (k : ℚ))
    simpa using this
  have hfin : (1 : ℚ) / 2 ^ 21 + 1 / 2 ^ 22 < 1 / 2 := by norm_num
  linarith

/-- The stored quotient in binary64: for a resolution below 2^32,
update_position(double) called with the binary64 value nearest to the
quotient the first call stored leaves the Motor and the driver as the first
call left them. -/
theorem update_position_rev_idempotent_binary64 {D : Type} (T : Target) (m : Motor) (d : D)
    (x : ℚ) (hres : 0 < m.steps_per_rev_) (hres32 : m.steps_per_rev_ < 2 ^ 32) :
    update_position_rev T (update_position_rev T m d x).1 (update_position_rev T m d x).2
        (nearest64 (((update_position_rev T m d x).1.position_step_ : ℚ)
          / (m.steps_per_rev_ : ℚ))) =
      update_position_rev T m d x := by
  have hk := to_int32_bounds T (Double.round (Double.ofRat (x * (m.steps_per_rev_ : ℚ))))
  have hnear := stored_quotient_product_near _ m.steps_per_rev_ hk hres hres32
  have hround := round_half_away_of_near _ _ hnear
  have hfit := to_int32_round_of_fits T _
    (by rw [hround]; exact hk.1) (by rw [hround]; exact hk.2)
  have hof := ofRat_of_round_bound
    (nearest64 (((to_int32 T (Double.round (Double.ofRat (x * (m.steps_per_rev_ : ℚ)))) : ℤ) : ℚ)
      / (m.steps_per_rev_ : ℚ)) * (m.steps_per_rev_ : ℚ))
    (by rw [hround, abs_le]; constructor <;> omega)
  have h2 : to_int32 T (Double.round (Double.ofRat
      (nearest64 (((to_int32 T (Double.round (Double.ofRat (x * (m.steps_per_rev_ : ℚ))))
        : ℤ) : ℚ) / (m.steps_per_rev_ : ℚ)) * (m.steps_per_rev_ : ℚ)))) =
      to_int32 T (Double.round (Double.ofRat (x * (m.steps_per_rev_ : ℚ)))) := by
    rw [hof, hfit, hround]
  simp only [update_position_rev]
  rw [h2]

end StepperMotor
